import Mathlib

/-! PatternDisplayController: work queue, scheduler and display cache.

A shallow embedding of
`Source/EMsoftWorkbench/Source/Modules/PatternDisplayModule/PatternDisplayController.cpp`.

* The controller fields touched by the scheduler are the record `Controller`.
* The external `PatternListModel` singleton is a status table `Nat → PatternStatus`.
* The worker function `generatePatternImagesUsingThread` is a small-step machine:
  every worker thread has a program counter `Pc`, and one `Event` is one atomic step of
  one thread (a worker, or the UI thread calling `addPriorityIndex` / `cancelGeneration`).
  A schedule is a list of events; `exec` runs it.  Calling `front()` on an empty `QList`
  is undefined behaviour and is modelled by the result `none`.
* `addPriorityIndex` takes no semaphore, so inside the locked section of a worker the test
  of `m_PriorityOrder.empty()` and the pop that follows are two steps, and a call of
  `addPriorityIndex` can fall between them.
* Loop counters and indices are C++ `int` / `size_t` values; they are embedded as natural
  numbers, which is exact for every angle count up to `2^31 - 1`.  The conversion of a
  popped priority entry to `int index` is only defined in the embedding for entries below
  `2^31`.
-/

namespace PatternDisplayController

/-! ## Data model -/

/-- Modelled from the spec: the enumeration `PatternListItem::PatternStatus`, declared in a
header that is not among the sources; the specification lists its five values. -/
inductive PatternStatus where
  | NotStarted
  | WaitingToLoad
  | Loading
  | Loaded
  | Error
  deriving DecidableEq, Repr

/-- Modelled from the spec: the status table of the `PatternListModel` singleton (its source
is not among the sources), one `PatternStatus` per index. -/
abbrev StatusTable := Nat → PatternStatus

/-- Modelled from the spec: `PatternListModel::setPatternStatus(index, status)`, a write of
one entry of the status table keyed by index. -/
def setPatternStatus (model : StatusTable) (index : Nat) (status : PatternStatus) : StatusTable :=
  fun j => if j = index then status else model j

/-- The part of `SimulatedPatternDisplayWidget::PatternDisplayData` read by the scheduler
(the structure is declared in a header that is not among the sources): the length of the
`angles` vector and the currently selected row, compared with the `int` loop counter. -/
structure PatternDisplayData where
  anglesSize : Nat
  currentRow : Int
  deriving DecidableEq, Repr

/-- Embedding of `size_t angleCount = eulerAngles.size() / 3`. -/
def angleCount (patternData : PatternDisplayData) : Nat := patternData.anglesSize / 3

/-- The scheduler fields of `PatternDisplayController`.  `m_CurrentOrderLock` is the number
of free resources of the `QSemaphore` constructed with `1`. -/
structure Controller where
  m_NumOfFinishedPatterns : Nat
  m_NumOfFinishedPatternThreads : Nat
  m_CurrentOrder : List Nat
  m_PriorityOrder : List Nat
  m_Cancel : Bool
  m_CurrentOrderLock : Nat
  deriving DecidableEq, Repr

/-- Program counter of one worker thread inside `generatePatternImagesUsingThread`. -/
inductive Pc where
  /-- about to evaluate `while(!m_CurrentOrder.empty())` -/
  | loopHead
  /-- about to evaluate `if(m_Cancel)` -/
  | cancelCheck
  /-- about to call `m_CurrentOrderLock.tryAcquire()` -/
  | tryAcquire
  /-- holding the semaphore, about to evaluate `if(!m_PriorityOrder.empty())` -/
  | locked
  /-- holding the semaphore in the priority branch, about to pop `m_PriorityOrder` -/
  | priorityBranch
  /-- holding the semaphore in the `else` branch, about to pop `m_CurrentOrder` -/
  | currentBranch
  /-- semaphore released, about to call `setPatternStatus(index, Loading)` -/
  | setLoading (index : Nat)
  /-- about to generate the pattern image and set `Loaded` or `Error` -/
  | generate (index : Nat)
  /-- about to increment `m_NumOfFinishedPatterns` -/
  | countFinished (index : Nat)
  /-- the function has returned -/
  | returned
  deriving DecidableEq, Repr

/-- Observable events recorded along a run (a history variable, not a field of the source). -/
inductive Obs where
  /-- a worker popped `index`; `fromPriority` tells which branch of the locked section ran -/
  | claimed (index : Nat) (fromPriority : Bool)
  /-- a worker incremented `m_NumOfFinishedPatterns` after processing `index` -/
  | completed (index : Nat)
  deriving DecidableEq, Repr

/-- A generation run: controller fields, status table, the worker threads and the history. -/
structure Run where
  ctl : Controller
  model : StatusTable
  workers : List Pc
  trace : List Obs

/-! ## `generatePatternImages` -/

/-- Body of the loop `for(int i = 0; i < angleCount; i++)` of `generatePatternImages`:
the status of row `i` becomes `WaitingToLoad`, and `i` is pushed to the front of the order
when it is the current row and to the back otherwise. -/
def orderLoopBody (currentRow : Int) (st : List Nat × StatusTable) (i : Nat) :
    List Nat × StatusTable :=
  let model := setPatternStatus st.2 i PatternStatus.WaitingToLoad
  if (i : Int) = currentRow then (i :: st.1, model) else (st.1 ++ [i], model)

/-- The loop of `generatePatternImages` run on a cleared `m_CurrentOrder`. -/
def orderLoop (currentRow : Int) (n : Nat) (model : StatusTable) : List Nat × StatusTable :=
  (List.range n).foldl (orderLoopBody currentRow) ([], model)

/-- Embedding of `PatternDisplayController::generatePatternImages`; `threads` is
`QThreadPool::globalInstance()->maxThreadCount()`.  The counters are zeroed, both queues are
cleared, the order is rebuilt, and `threads` workers are launched.  `m_Cancel` and the
semaphore are not written. -/
def generatePatternImages (pre : Controller) (model : StatusTable)
    (patternData : PatternDisplayData) (threads : Nat) : Run :=
  let st := orderLoop patternData.currentRow (angleCount patternData) model
  { ctl := { pre with
      m_NumOfFinishedPatterns := 0
      m_NumOfFinishedPatternThreads := 0
      m_CurrentOrder := st.1
      m_PriorityOrder := [] }
    model := st.2
    workers := List.replicate threads Pc.loopHead
    trace := [] }

/-- The order the specification describes: the focus index followed by the other indices
ascending when the row is in range, the plain ascending list otherwise. -/
def specOrder (n : Nat) (currentRow : Int) : List Nat :=
  if 0 ≤ currentRow ∧ currentRow < n then
    currentRow.toNat :: (List.range n).filter (fun i => i ≠ currentRow.toNat)
  else List.range n

/-! ## `generatePatternImagesUsingThread`, `addPriorityIndex`, `cancelGeneration` -/

/-- Embedding of `PatternDisplayController::generatePatternImage`: the image is built by the
external `ImageGenerator` and the function ends with `return true`. -/
def generatePatternImage (_index : Nat) : Bool := true

/-- Replace the program counter of worker `w`. -/
def Run.setPc (r : Run) (w : Nat) (pc : Pc) : Run :=
  { r with workers := r.workers.set w pc }

/-- The priority branch of the locked section: `index = m_PriorityOrder.front()`,
`pop_front()`, `m_CurrentOrder.removeAll(index)`, then the release of the semaphore.  The
three statements are one step: the only concurrent access is the `push_back` of
`addPriorityIndex` at the tail, which changes neither the front nor what is removed, and no
other thread reads `m_PriorityOrder`.  `front()` on an empty list is undefined behaviour
(`none`).  The entry, a `size_t`, is converted to `int index`; an entry of `2^31` or more
does not fit, its conversion is implementation-defined and the embedding gives no result for
it (`none`). -/
def popPriorityBranch (r : Run) (w : Nat) : Option Run :=
  match r.ctl.m_PriorityOrder with
  | index :: rest =>
    if index < 2 ^ 31 then
      some { ctl := { r.ctl with
               m_PriorityOrder := rest
               m_CurrentOrder := r.ctl.m_CurrentOrder.filter (fun j => j != index)
               m_CurrentOrderLock := r.ctl.m_CurrentOrderLock + 1 }
             model := r.model
             workers := r.workers.set w (Pc.setLoading index)
             trace := r.trace ++ [Obs.claimed index true] }
    else none
  | [] => none

/-- The `else` branch of the locked section: `index = m_CurrentOrder.front()`,
`pop_front()`, then the release of the semaphore.  `m_CurrentOrder` is written only by the
worker that holds the semaphore.  `front()` on an empty list is undefined behaviour
(`none`). -/
def popCurrentBranch (r : Run) (w : Nat) : Option Run :=
  match r.ctl.m_CurrentOrder with
  | index :: rest =>
    some { ctl := { r.ctl with
             m_CurrentOrder := rest
             m_CurrentOrderLock := r.ctl.m_CurrentOrderLock + 1 }
           model := r.model
           workers := r.workers.set w (Pc.setLoading index)
           trace := r.trace ++ [Obs.claimed index false] }
  | [] => none

/-- Embedding of `PatternDisplayController::generatePatternImagesUsingThread` as a step
function: one atomic step of worker `w` at program counter `pc`, following the statements
of the source in order.  The reads of `m_CurrentOrder.empty()` and of `m_Cancel` are steps of
their own, because the source makes them before taking the semaphore.  Inside the locked
section the test of `m_PriorityOrder.empty()` is a step of its own, because
`addPriorityIndex` writes that queue without the semaphore; the pop of the chosen branch
follows as the next step.  The increment under `m_NumOfFinishedPatternsLock` is one step. -/
def generatePatternImagesUsingThread (r : Run) (w : Nat) : Pc → Option Run
  | Pc.loopHead =>
    if r.ctl.m_CurrentOrder.isEmpty then some (r.setPc w Pc.returned)
    else some (r.setPc w Pc.cancelCheck)
  | Pc.cancelCheck =>
    if r.ctl.m_Cancel then some (r.setPc w Pc.returned)
    else some (r.setPc w Pc.tryAcquire)
  | Pc.tryAcquire =>
    if 0 < r.ctl.m_CurrentOrderLock then
      some { r with
        ctl := { r.ctl with m_CurrentOrderLock := r.ctl.m_CurrentOrderLock - 1 }
        workers := r.workers.set w Pc.locked }
    else some (r.setPc w Pc.loopHead)
  | Pc.locked =>
    if r.ctl.m_PriorityOrder.isEmpty then some (r.setPc w Pc.currentBranch)
    else some (r.setPc w Pc.priorityBranch)
  | Pc.priorityBranch => popPriorityBranch r w
  | Pc.currentBranch => popCurrentBranch r w
  | Pc.setLoading index =>
    some { r with
      model := setPatternStatus r.model index PatternStatus.Loading
      workers := r.workers.set w (Pc.generate index) }
  | Pc.generate index =>
    some { r with
      model := setPatternStatus r.model index
        (if generatePatternImage index then PatternStatus.Loaded else PatternStatus.Error)
      workers := r.workers.set w (Pc.countFinished index) }
  | Pc.countFinished index =>
    some { r with
      ctl := { r.ctl with m_NumOfFinishedPatterns := r.ctl.m_NumOfFinishedPatterns + 1 }
      workers := r.workers.set w Pc.loopHead
      trace := r.trace ++ [Obs.completed index] }
  | Pc.returned => some r

/-- One step of worker `w`; a thread that does not exist does nothing. -/
def workerStep (r : Run) (w : Nat) : Option Run :=
  match r.workers[w]? with
  | none => some r
  | some pc => generatePatternImagesUsingThread r w pc

/-- Embedding of `PatternDisplayController::addPriorityIndex`. -/
def addPriorityIndex (c : Controller) (index : Nat) : Controller :=
  { c with m_PriorityOrder := c.m_PriorityOrder ++ [index] }

/-- Embedding of `PatternDisplayController::cancelGeneration`. -/
def cancelGeneration (c : Controller) : Controller :=
  { c with m_Cancel := true }

/-- Embedding of `PatternDisplayController::patternThreadFinished`; the Boolean tells
whether `patternGenerationFinished` is emitted.  `threads` is the pool size. -/
def patternThreadFinished (c : Controller) (threads : Nat) : Controller × Bool :=
  let c1 := { c with m_NumOfFinishedPatternThreads := c.m_NumOfFinishedPatternThreads + 1 }
  if c1.m_NumOfFinishedPatternThreads = threads then
    ({ c1 with m_Cancel := false }, true)
  else (c1, false)

/-- What can happen next in a run: a worker thread takes a step, or the UI thread calls
`addPriorityIndex` or `cancelGeneration`. -/
inductive Event where
  | worker (w : Nat)
  | addPriorityIndex (index : Nat)
  | cancelGeneration
  deriving DecidableEq, Repr

/-- One event applied to a run. -/
def step (r : Run) : Event → Option Run
  | Event.worker w => workerStep r w
  | Event.addPriorityIndex index => some { r with ctl := addPriorityIndex r.ctl index }
  | Event.cancelGeneration => some { r with ctl := cancelGeneration r.ctl }

/-- Run a schedule (a list of events) from `r`. -/
def exec (r : Run) : List Event → Option Run
  | [] => some r
  | e :: es => (step r e).bind (fun r1 => exec r1 es)

/-- Whether an event is a call of `addPriorityIndex`. -/
def Event.isAddPriority : Event → Bool
  | Event.addPriorityIndex _ => true
  | _ => false

/-- Whether an event is a call of `cancelGeneration`. -/
def Event.isCancel : Event → Bool
  | Event.cancelGeneration => true
  | _ => false

/-- The claims recorded in a history, oldest first, with the branch that made them. -/
def claims : List Obs → List (Nat × Bool)
  | [] => []
  | Obs.claimed index b :: t => (index, b) :: claims t
  | Obs.completed _ :: t => claims t

/-- The indices claimed in a history, oldest first. -/
def claimedIndices (t : List Obs) : List Nat := (claims t).map Prod.fst

/-- The indices whose processing finished in a history, oldest first. -/
def completedIndices : List Obs → List Nat
  | [] => []
  | Obs.claimed _ _ :: t => completedIndices t
  | Obs.completed index :: t => index :: completedIndices t

/-- Whether a worker currently holds a popped index that it has not counted yet. -/
def Pc.inFlight : Pc → Nat
  | Pc.setLoading _ => 1
  | Pc.generate _ => 1
  | Pc.countFinished _ => 1
  | _ => 0

/-- Whether a worker has passed the `m_Cancel` check of the current loop iteration and
has not popped yet. -/
def Pc.pastCheck : Pc → Nat
  | Pc.tryAcquire => 1
  | Pc.locked => 1
  | Pc.priorityBranch => 1
  | Pc.currentBranch => 1
  | _ => 0

/-- The state of a freshly constructed controller: counters zero, queues empty, semaphore
created with one resource as in the constructor.  The initial value of `m_Cancel` is given
in the header, which is not among the sources; it is taken to be `false`. -/
def Controller.fresh : Controller :=
  { m_NumOfFinishedPatterns := 0
    m_NumOfFinishedPatternThreads := 0
    m_CurrentOrder := []
    m_PriorityOrder := []
    m_Cancel := false
    m_CurrentOrderLock := 1 }

/-- The status table of a pattern list on which nothing has been started. -/
def StatusTable.fresh : StatusTable := fun _ => PatternStatus.NotStarted

/-- The schedule in which worker `0` runs alone for `k` steps. -/
def soloSchedule (k : Nat) : List Event := List.replicate k (Event.worker 0)

/-- The schedule in which worker `0` runs alone for `k` steps and then every worker of a
pool of `threads` takes one step. -/
def sequentialSchedule (k threads : Nat) : List Event :=
  soloSchedule k ++ (List.range threads).map Event.worker

/-! ## Display cache: `updateMPImage`, `updateMCImage` -/

/-- The three values of `MPMCDisplayWidget::ProjectionMode` that the controller tests (the
enumeration is declared in a header that is not among the sources). -/
inductive ProjectionMode where
  | Lambert_Square
  | Lambert_Circle
  | Stereographic
  deriving DecidableEq, Repr

/-- The query `MPMCDisplayWidget::MPMCData`: a projection mode and an `int` energy bin. -/
structure MPMCData where
  mode : ProjectionMode
  energyBin : Int
  deriving DecidableEq, Repr

/-- One cached `AbstractImageGenerator`: what `getGeneratedImage()` and `getMinMaxPair()`
return. -/
structure ImageGen (Img V : Type) where
  generatedImage : Img
  minMaxPair : V × V
  deriving DecidableEq, Repr

/-- The payload `GLImageViewer::GLImageData` of the display signals; `image = none` is the
null `QImage()`. -/
structure GLImageData (Img V : Type) where
  image : Option Img
  minValue : V
  maxValue : V
  keVValue : V
  deriving DecidableEq, Repr

/-- The generator arrays of the controller and the energy levels `m_MP_Data.ekevs`. -/
structure DisplayCache (Img V : Type) where
  m_MasterLPNHImageGenerators : List (ImageGen Img V)
  m_MasterLPSHImageGenerators : List (ImageGen Img V)
  m_MasterCircleImageGenerators : List (ImageGen Img V)
  m_MasterStereoImageGenerators : List (ImageGen Img V)
  m_MCSquareImageGenerators : List (ImageGen Img V)
  m_MCCircleImageGenerators : List (ImageGen Img V)
  m_MCStereoImageGenerators : List (ImageGen Img V)
  ekevs : List V

/-- The guard comparison `energyBin > generators.size()`.  The containers are declared in
the header, which is not among the sources, so the type of `size()` is a parameter: with
`unsignedSize` the `int` is converted to a 64-bit unsigned value before comparing (a
`std::vector`), without it the comparison is between `int`s (a Qt container). -/
def exceedsSize (unsignedSize : Bool) (energyBin : Int) (size : Nat) : Bool :=
  if unsignedSize then decide ((size : Int) < energyBin % 2 ^ 64)
  else decide ((size : Int) < energyBin)

/-- Element access `xs[i]` / `xs.at(i)` with an `int` position; `none` is an access outside
the container. -/
def elementAt {α : Type} (xs : List α) (i : Int) : Option α :=
  if 0 ≤ i then xs[i.toNat]? else none

/-- The blank result: null image, zero range, zero energy. -/
def blankImageData {Img V : Type} [Zero V] : GLImageData Img V :=
  { image := none, minValue := 0, maxValue := 0, keVValue := 0 }

/-- The `else` branch shared by `updateMPImage` and `updateMCImage`: read slot
`energyBin - 1` of the selected array and of `ekevs`. -/
def readSlot {Img V : Type} (generators : List (ImageGen Img V)) (ekevs : List V)
    (energyBin : Int) : Option (GLImageData Img V) :=
  (elementAt generators (energyBin - 1)).bind fun imageGen =>
    (elementAt ekevs (energyBin - 1)).bind fun keV =>
      some { image := some imageGen.generatedImage
             minValue := imageGen.minMaxPair.1
             maxValue := imageGen.minMaxPair.2
             keVValue := keV }

/-- Embedding of `PatternDisplayController::updateMPImage`: the payload of
`mpImageNeedsDisplayed`, or `none` when a container is accessed out of bounds. -/
def updateMPImage {Img V : Type} [Zero V] (unsignedSize : Bool) (c : DisplayCache Img V)
    (mpData : MPMCData) : Option (GLImageData Img V) :=
  let mode := mpData.mode
  let energyBin := mpData.energyBin
  if (mode = ProjectionMode.Lambert_Square ∧
        exceedsSize unsignedSize energyBin c.m_MasterLPNHImageGenerators.length = true) ∨
     (mode = ProjectionMode.Lambert_Circle ∧
        exceedsSize unsignedSize energyBin c.m_MasterCircleImageGenerators.length = true) ∨
     (mode = ProjectionMode.Stereographic ∧
        exceedsSize unsignedSize energyBin c.m_MasterStereoImageGenerators.length = true) then
    some blankImageData
  else
    match mode with
    | ProjectionMode.Lambert_Square => readSlot c.m_MasterLPNHImageGenerators c.ekevs energyBin
    | ProjectionMode.Lambert_Circle => readSlot c.m_MasterCircleImageGenerators c.ekevs energyBin
    | ProjectionMode.Stereographic => readSlot c.m_MasterStereoImageGenerators c.ekevs energyBin

/-- Embedding of `PatternDisplayController::updateMCImage`: the payload of
`mcImageNeedsDisplayed`, or `none` when a container is accessed out of bounds. -/
def updateMCImage {Img V : Type} [Zero V] (unsignedSize : Bool) (c : DisplayCache Img V)
    (mcData : MPMCData) : Option (GLImageData Img V) :=
  let mode := mcData.mode
  let energyBin := mcData.energyBin
  if (mode = ProjectionMode.Lambert_Square ∧
        exceedsSize unsignedSize energyBin c.m_MCSquareImageGenerators.length = true) ∨
     (mode = ProjectionMode.Lambert_Circle ∧
        exceedsSize unsignedSize energyBin c.m_MCCircleImageGenerators.length = true) ∨
     (mode = ProjectionMode.Stereographic ∧
        exceedsSize unsignedSize energyBin c.m_MCStereoImageGenerators.length = true) then
    some blankImageData
  else
    match mode with
    | ProjectionMode.Lambert_Square => readSlot c.m_MCSquareImageGenerators c.ekevs energyBin
    | ProjectionMode.Lambert_Circle => readSlot c.m_MCCircleImageGenerators c.ekevs energyBin
    | ProjectionMode.Stereographic => readSlot c.m_MCStereoImageGenerators c.ekevs energyBin

/-- A small cache used in examples: every family holds three generators and there are
three energy levels. -/
def sampleCache : DisplayCache Nat Int :=
  let gens : List (ImageGen Nat Int) :=
    [⟨10, (1, 2)⟩, ⟨11, (3, 4)⟩, ⟨12, (5, 6)⟩]
  { m_MasterLPNHImageGenerators := gens
    m_MasterLPSHImageGenerators := gens
    m_MasterCircleImageGenerators := gens
    m_MasterStereoImageGenerators := gens
    m_MCSquareImageGenerators := gens
    m_MCCircleImageGenerators := gens
    m_MCStereoImageGenerators := gens
    ekevs := [5, 10, 15] }

/-! ## `validateDetectorValues` -/

/-- The file name of a path as `QFileInfo::fileName()` gives it: the characters after the
last `/`. -/
def fileNameChars (path : List Char) : List Char :=
  (path.reverse.takeWhile (fun ch => ch != '/')).reverse

/-- The complete suffix as `QFileInfo::completeSuffix()` gives it: all characters of the file
name after (not including) the first `.`. -/
def completeSuffix (path : String) : String :=
  String.mk (((fileNameChars path.data).dropWhile (fun ch => ch != '.')).drop 1)

/-- The suffix as `QFileInfo::suffix()` gives it: all characters of the file name after (not
including) the last `.`; empty when the name has no dot. -/
def lastSuffix (path : String) : String :=
  let name := fileNameChars path.data
  if '.' ∈ name then String.mk (name.reverse.takeWhile (fun ch => ch != '.')).reverse
  else ""

/-- Embedding of `PatternDisplayController::validateDetectorValues` on the field
`masterFilePath`; `fileExists` is the file system seen by `QFileInfo::exists()`.  The result
is the returned Boolean and the list of `errorMessageGenerated` emissions. -/
def validateDetectorValues (fileExists : String → Bool) (masterFilePath : String) :
    Bool × List String :=
  if masterFilePath.isEmpty then
    (false, ["The master file path must be set."])
  else if !fileExists masterFilePath then
    (false, ["The master file path '" ++ masterFilePath ++ "' does not exist."])
  else
    let suffix := completeSuffix masterFilePath
    if suffix != "h5" && suffix != "dream3d" then
      (false, ["The master file path '" ++ masterFilePath ++ "' is not an HDF5 file."])
    else (true, [])

/-! ## Relational view of a worker step -/

/-- The steps of `generatePatternImagesUsingThread`, one constructor per branch of the
source: `WorkerTransition r w pc r1` says that worker `w`, being at `pc` in `r`, steps to
`r1`. -/
inductive WorkerTransition (r : Run) (w : Nat) : Pc → Run → Prop where
  | exitEmpty (h : r.ctl.m_CurrentOrder = []) :
      WorkerTransition r w Pc.loopHead { r with workers := r.workers.set w Pc.returned }
  | enterLoop (h : r.ctl.m_CurrentOrder ≠ []) :
      WorkerTransition r w Pc.loopHead { r with workers := r.workers.set w Pc.cancelCheck }
  | exitCancel (h : r.ctl.m_Cancel = true) :
      WorkerTransition r w Pc.cancelCheck { r with workers := r.workers.set w Pc.returned }
  | passCheck (h : r.ctl.m_Cancel = false) :
      WorkerTransition r w Pc.cancelCheck { r with workers := r.workers.set w Pc.tryAcquire }
  | acquire (h : 0 < r.ctl.m_CurrentOrderLock) :
      WorkerTransition r w Pc.tryAcquire
        { r with
          ctl := { r.ctl with m_CurrentOrderLock := r.ctl.m_CurrentOrderLock - 1 }
          workers := r.workers.set w Pc.locked }
  | acquireFail (h : r.ctl.m_CurrentOrderLock = 0) :
      WorkerTransition r w Pc.tryAcquire { r with workers := r.workers.set w Pc.loopHead }
  | testPriority (h : r.ctl.m_PriorityOrder ≠ []) :
      WorkerTransition r w Pc.locked { r with workers := r.workers.set w Pc.priorityBranch }
  | testCurrent (h : r.ctl.m_PriorityOrder = []) :
      WorkerTransition r w Pc.locked { r with workers := r.workers.set w Pc.currentBranch }
  | popPriority (index : Nat) (rest : List Nat) (h : r.ctl.m_PriorityOrder = index :: rest)
      (hfit : index < 2 ^ 31) :
      WorkerTransition r w Pc.priorityBranch
        { ctl := { r.ctl with
            m_PriorityOrder := rest
            m_CurrentOrder := r.ctl.m_CurrentOrder.filter (fun j => j != index)
            m_CurrentOrderLock := r.ctl.m_CurrentOrderLock + 1 }
          model := r.model
          workers := r.workers.set w (Pc.setLoading index)
          trace := r.trace ++ [Obs.claimed index true] }
  | popCurrent (index : Nat) (rest : List Nat) (h : r.ctl.m_CurrentOrder = index :: rest) :
      WorkerTransition r w Pc.currentBranch
        { ctl := { r.ctl with
            m_CurrentOrder := rest
            m_CurrentOrderLock := r.ctl.m_CurrentOrderLock + 1 }
          model := r.model
          workers := r.workers.set w (Pc.setLoading index)
          trace := r.trace ++ [Obs.claimed index false] }
  | markLoading (index : Nat) :
      WorkerTransition r w (Pc.setLoading index)
        { r with
          model := setPatternStatus r.model index PatternStatus.Loading
          workers := r.workers.set w (Pc.generate index) }
  | markLoaded (index : Nat) :
      WorkerTransition r w (Pc.generate index)
        { r with
          model := setPatternStatus r.model index PatternStatus.Loaded
          workers := r.workers.set w (Pc.countFinished index) }
  | count (index : Nat) :
      WorkerTransition r w (Pc.countFinished index)
        { r with
          ctl := { r.ctl with m_NumOfFinishedPatterns := r.ctl.m_NumOfFinishedPatterns + 1 }
          workers := r.workers.set w Pc.loopHead
          trace := r.trace ++ [Obs.completed index] }
  | stay : WorkerTransition r w Pc.returned r

/-! ## Invariants of a run -/

/-- Counting invariant: every claim is either counted as finished or still held by a
worker, and every increment of the finished count is recorded. -/
def CountInv (r : Run) : Prop :=
  r.ctl.m_NumOfFinishedPatterns + (r.workers.map Pc.inFlight).sum = (claims r.trace).length ∧
  (completedIndices r.trace).length = r.ctl.m_NumOfFinishedPatterns

/-- Invariant of a run without `addPriorityIndex` calls: the priority queue stays empty and
the indices claimed so far followed by the remaining order are the order built at start. -/
def QuietInv (order0 : List Nat) (r : Run) : Prop :=
  r.ctl.m_PriorityOrder = [] ∧ claimedIndices r.trace ++ r.ctl.m_CurrentOrder = order0

/-- Every index below `n` is still queued, or held by a worker that has not yet marked it
`Loaded`, or has status `Loaded`. -/
def SettledInv (n : Nat) (r : Run) : Prop :=
  ∀ i, i < n → i ∈ r.ctl.m_CurrentOrder ∨ Pc.setLoading i ∈ r.workers ∨
    Pc.generate i ∈ r.workers ∨ r.model i = PatternStatus.Loaded

/-- Invariant of a run without `cancelGeneration` calls: the flag stays clear, and a worker
has returned only if the order is empty. -/
def ExitInv (r : Run) : Prop :=
  r.ctl.m_Cancel = false ∧ (Pc.returned ∈ r.workers → r.ctl.m_CurrentOrder = [])

/-- The queued indices are distinct, have status `WaitingToLoad`, and no worker is about to
change their status. -/
def WaitingInv (r : Run) : Prop :=
  r.ctl.m_CurrentOrder.Nodup ∧
  ∀ i ∈ r.ctl.m_CurrentOrder, r.model i = PatternStatus.WaitingToLoad ∧
    Pc.setLoading i ∉ r.workers ∧ Pc.generate i ∉ r.workers

/-- The index a worker has popped and not yet counted as finished. -/
def Pc.holding : Pc → List Nat
  | Pc.setLoading index => [index]
  | Pc.generate index => [index]
  | Pc.countFinished index => [index]
  | _ => []

/-- Invariant of a pool of one worker: the claimed indices are the finished ones followed
by the index in progress. -/
def SingleInv (r : Run) : Prop :=
  ∃ pc, r.workers = [pc] ∧ claimedIndices r.trace = completedIndices r.trace ++ pc.holding

/-- Events of a run in which the UI thread stays silent: worker steps only. -/
def Event.isWorker (e : Event) : Prop := e.isAddPriority = false ∧ e.isCancel = false

/-- Invariant after a call `addPriorityIndex(k)` made while `k` was queued and no worker
stood between the test of `m_PriorityOrder.empty()` and the pop of `m_CurrentOrder`: `base`
is the history at the call and `p` the priority queue right before it.  Every later claim
that no claim of `k` precedes came through the priority branch and continues a leading
segment of `p ++ [k]`; `k` is out of the order once claimed; until then it stays in both
queues and no worker enters the `else` branch. -/
def PriorityInv (p : List Nat) (k : Nat) (base : List Obs) (x : Run) : Prop :=
  ∃ new, x.trace = base ++ new ∧
    (∀ pre c post, claims new = pre ++ c :: post → (∀ d ∈ pre, d.1 ≠ k) →
      c.2 = true ∧ ∃ rest, pre.map Prod.fst ++ c.1 :: rest = p ++ [k]) ∧
    (k ∈ claimedIndices new → k ∉ x.ctl.m_CurrentOrder) ∧
    (k ∉ claimedIndices new → k ∈ x.ctl.m_CurrentOrder ∧ Pc.currentBranch ∉ x.workers ∧
      ∃ added, claimedIndices new ++ x.ctl.m_PriorityOrder = p ++ k :: added)

/-- Invariant of a run without `addPriorityIndex` calls: the priority queue stays empty and
every claim came through the front of `m_CurrentOrder`. -/
def BranchInv (r : Run) : Prop :=
  r.ctl.m_PriorityOrder = [] ∧ ∀ c ∈ claims r.trace, c.2 = false

/-- Before the first claim every index below `n` still has status `WaitingToLoad` and no
worker holds an index. -/
def FirstInv (n : Nat) (r : Run) : Prop :=
  claims r.trace = [] →
    (∀ i, i < n → r.model i = PatternStatus.WaitingToLoad) ∧ ∀ pc ∈ r.workers, pc.holding = []

/-- Invariant once the cancel flag is set: the flag stays set, and the number of claims
plus the number of workers that have passed the flag check without popping yet does not
exceed `bound`. -/
def CancelInv (bound : Nat) (x : Run) : Prop :=
  x.ctl.m_Cancel = true ∧ (claims x.trace).length + (x.workers.map Pc.pastCheck).sum ≤ bound

/-- Invariant of a pool of one worker without `addPriorityIndex` calls: between the loop
condition and the pop the order is not empty, so `front()` is never called on an empty
list. -/
def SoloInv (r : Run) : Prop :=
  ∃ pc, r.workers = [pc] ∧ r.ctl.m_PriorityOrder = [] ∧ pc ≠ Pc.priorityBranch ∧
    ((pc = Pc.cancelCheck ∨ pc = Pc.tryAcquire ∨ pc = Pc.locked ∨ pc = Pc.currentBranch) →
      r.ctl.m_CurrentOrder ≠ [])

/-! ## Families named by the specification -/

/-- The master-pattern generator array the specification associates with a projection
mode: LPNH for the Lambert square, circle for the Lambert circle, stereo for the
stereographic projection. -/
def masterFamily {Img V : Type} (c : DisplayCache Img V) : ProjectionMode → List (ImageGen Img V)
  | ProjectionMode.Lambert_Square => c.m_MasterLPNHImageGenerators
  | ProjectionMode.Lambert_Circle => c.m_MasterCircleImageGenerators
  | ProjectionMode.Stereographic => c.m_MasterStereoImageGenerators

/-- The Monte Carlo generator array the specification associates with a projection mode:
square, circle, stereo. -/
def monteCarloFamily {Img V : Type} (c : DisplayCache Img V) :
    ProjectionMode → List (ImageGen Img V)
  | ProjectionMode.Lambert_Square => c.m_MCSquareImageGenerators
  | ProjectionMode.Lambert_Circle => c.m_MCCircleImageGenerators
  | ProjectionMode.Stereographic => c.m_MCStereoImageGenerators

/-- The result the specification describes for an in-range query: image and value range of
the generator in `slot`, with the energy `keV`. -/
def slotResult {Img V : Type} (imageGen : ImageGen Img V) (keV : V) : GLImageData Img V :=
  { image := some imageGen.generatedImage
    minValue := imageGen.minMaxPair.1
    maxValue := imageGen.minMaxPair.2
    keVValue := keV }

/-! ## Calls of `patternThreadFinished` -/

/-- The first `k` calls of `patternThreadFinished` in a row: the controller reached and,
oldest first, whether each call emitted `patternGenerationFinished`. -/
def patternThreadFinishedCalls (c : Controller) (threads : Nat) : Nat → Controller × List Bool
  | 0 => (c, [])
  | k + 1 =>
    let prev := patternThreadFinishedCalls c threads k
    let res := patternThreadFinished prev.1 threads
    (res.1, prev.2 ++ [res.2])

/-- A run together with its watchers: `delivered` lists the workers whose `QFutureWatcher`
has delivered `finished()` to the slot `patternThreadFinished`, and `finishedEvents` counts
the emissions of `patternGenerationFinished`. -/
structure Session where
  run : Run
  delivered : List Nat
  finishedEvents : Nat

/-- What can happen next in a session: an event of the run, or the delivery of the
`finished()` signal of the watcher of worker `w`. -/
inductive SessionEvent where
  | run (e : Event)
  | watcherFinished (w : Nat)
  deriving DecidableEq, Repr

/-- One event of a session.  The connection made in `generatePatternImages` calls
`patternThreadFinished` once for every watcher, after the worker function it watches has
returned (the behaviour of `QFutureWatcher::finished`); a delivery that is not due changes
nothing.  The pool size compared with the counter is the number of workers launched. -/
def sessionStep (s : Session) : SessionEvent → Option Session
  | SessionEvent.run e => (step s.run e).map fun r => { s with run := r }
  | SessionEvent.watcherFinished w =>
    if s.run.workers[w]? = some Pc.returned ∧ w ∉ s.delivered then
      let res := patternThreadFinished s.run.ctl s.run.workers.length
      some { run := { s.run with ctl := res.1 }
             delivered := w :: s.delivered
             finishedEvents := s.finishedEvents + (if res.2 then 1 else 0) }
    else some s

/-- Run a schedule of session events. -/
def sessionExec (s : Session) : List SessionEvent → Option Session
  | [] => some s
  | e :: es => (sessionStep s e).bind fun s1 => sessionExec s1 es

/-- The session right after `generatePatternImages`: no watcher has delivered yet. -/
def startSession (pre : Controller) (model : StatusTable) (patternData : PatternDisplayData)
    (threads : Nat) : Session :=
  { run := generatePatternImages pre model patternData threads
    delivered := []
    finishedEvents := 0 }

/-- Invariant of a session of `threads` workers: the delivered watchers are distinct and
belong to returned workers, the counter `m_NumOfFinishedPatternThreads` counts them, and
`patternGenerationFinished` has been emitted once exactly when all have delivered. -/
def SessionInv (threads : Nat) (s : Session) : Prop :=
  s.run.workers.length = threads ∧ s.delivered.Nodup ∧
  (∀ v ∈ s.delivered, s.run.workers[v]? = some Pc.returned) ∧
  s.run.ctl.m_NumOfFinishedPatternThreads = s.delivered.length ∧
  s.finishedEvents = (if threads ≤ s.delivered.length then 1 else 0)

/-! ## Theorems: the order built by `generatePatternImages` -/

theorem orderLoop_succ (row : Int) (n : Nat) (model : StatusTable) :
    orderLoop row (n + 1) model = orderLoopBody row (orderLoop row n model) n := by
  simp [orderLoop, List.range_succ, List.foldl_append]

theorem filter_ne_range_of_le (n k : Nat) (h : n ≤ k) :
    (List.range n).filter (fun i => i ≠ k) = List.range n := by
  apply List.filter_eq_self.2
  intro a ha
  have := List.mem_range.1 ha
  simp only [ne_eq, decide_not, Bool.not_eq_eq_eq_not, Bool.not_true, decide_eq_false_iff_not]
  omega

theorem orderLoop_fst (row : Int) (n : Nat) (model : StatusTable) :
    (orderLoop row n model).1 = specOrder n row := by
  induction n with
  | zero =>
    simp [orderLoop, specOrder]
  | succ n ih =>
    rw [orderLoop_succ]
    unfold orderLoopBody
    simp only [ih]
    unfold specOrder
    by_cases hn : (n : Int) = row
    · have h1 : ¬ (0 ≤ row ∧ row < (n : Int)) := by omega
      have h2 : 0 ≤ row ∧ row < ((n + 1 : Nat) : Int) := by omega
      have h3 : row.toNat = n := by omega
      rw [if_pos hn, if_neg h1, if_pos h2, h3]
      simp only [List.range_succ, List.filter_append, filter_ne_range_of_le n n (le_refl n)]
      simp
    · rw [if_neg hn]
      by_cases hr : 0 ≤ row ∧ row < (n : Int)
      · have h2 : 0 ≤ row ∧ row < ((n + 1 : Nat) : Int) := by omega
        have h3 : n ≠ row.toNat := by omega
        rw [if_pos hr, if_pos h2]
        simp [List.range_succ, List.filter_append, h3]
      · have h2 : ¬ (0 ≤ row ∧ row < ((n + 1 : Nat) : Int)) := by omega
        rw [if_neg hr, if_neg h2]
        simp [List.range_succ]

theorem specOrder_perm (n : Nat) (row : Int) : (specOrder n row).Perm (List.range n) := by
  unfold specOrder
  split
  · rename_i h
    have hk : row.toNat < n := by omega
    generalize row.toNat = k at hk
    have hmem : k ∈ List.range n := List.mem_range.2 hk
    have hnd : (List.range n).Nodup := List.nodup_range n
    have h1 := List.perm_cons_erase hmem
    rw [hnd.erase_eq_filter] at h1
    refine List.Perm.symm (h1.trans ?_)
    apply List.Perm.cons
    apply List.Perm.of_eq
    apply List.filter_congr
    intro a _
    by_cases hak : a = k <;> simp [hak]
  · exact List.Perm.refl _

theorem specOrder_nodup (n : Nat) (row : Int) : (specOrder n row).Nodup :=
  (specOrder_perm n row).nodup_iff.2 (List.nodup_range n)

/-- C1: for every angle count and every current row, the order left in `m_CurrentOrder`
by `generatePatternImages` is the current row followed by all other indices ascending when
the row is in range, and the plain ascending list otherwise; in both cases it has no
duplicates and is a permutation of the indices below the angle count. -/
theorem generatePatternImages_currentOrder (pre : Controller) (model : StatusTable)
    (patternData : PatternDisplayData) (threads : Nat) :
    (generatePatternImages pre model patternData threads).ctl.m_CurrentOrder =
      (if 0 ≤ patternData.currentRow ∧ patternData.currentRow < angleCount patternData then
        patternData.currentRow.toNat ::
          (List.range (angleCount patternData)).filter
            (fun i => i ≠ patternData.currentRow.toNat)
       else List.range (angleCount patternData)) ∧
    (generatePatternImages pre model patternData threads).ctl.m_CurrentOrder.Nodup ∧
    (generatePatternImages pre model patternData threads).ctl.m_CurrentOrder.Perm
      (List.range (angleCount patternData)) := by
  have h : (generatePatternImages pre model patternData threads).ctl.m_CurrentOrder =
      specOrder (angleCount patternData) patternData.currentRow := by
    simp [generatePatternImages, orderLoop_fst]
  rw [h]
  exact ⟨rfl, specOrder_nodup _ _, specOrder_perm _ _⟩

/-! ## Theorems: basic facts about schedules and histories -/

theorem claims_append (a b : List Obs) : claims (a ++ b) = claims a ++ claims b := by
  induction a with
  | nil => rfl
  | cons o t ih => cases o <;> simp [claims, ih]

theorem claimedIndices_append (a b : List Obs) :
    claimedIndices (a ++ b) = claimedIndices a ++ claimedIndices b := by
  simp [claimedIndices, claims_append]

theorem completedIndices_append (a b : List Obs) :
    completedIndices (a ++ b) = completedIndices a ++ completedIndices b := by
  induction a with
  | nil => rfl
  | cons o t ih => cases o <;> simp [completedIndices, ih]

theorem exec_append (r : Run) (a b : List Event) :
    exec r (a ++ b) = (exec r a).bind (fun r1 => exec r1 b) := by
  induction a generalizing r with
  | nil => rfl
  | cons e es ih =>
    simp only [List.cons_append, exec]
    cases step r e with
    | none => rfl
    | some r1 => simpa using ih r1

/-- An invariant kept by every allowed step is kept by every schedule of allowed events. -/
theorem exec_invariant (Inv : Run → Prop) (Allowed : Event → Prop)
    (hstep : ∀ r e r1, Inv r → Allowed e → step r e = some r1 → Inv r1) :
    ∀ (es : List Event) (r r1 : Run), Inv r → (∀ e ∈ es, Allowed e) →
      exec r es = some r1 → Inv r1 := by
  intro es
  induction es with
  | nil =>
    intro r r1 hi _ h
    simp only [exec, Option.some.injEq] at h
    exact h ▸ hi
  | cons e es ih =>
    intro r r1 hi hall h
    simp only [exec] at h
    cases hs : step r e with
    | none => simp [hs] at h
    | some r2 =>
      simp only [hs, Option.some_bind] at h
      exact ih r2 r1 (hstep r e r2 hi (hall e (List.mem_cons_self _ _)) hs)
        (fun e1 he1 => hall e1 (List.mem_cons_of_mem _ he1)) h

/-- Every step of `generatePatternImagesUsingThread` is one of the transitions. -/
theorem thread_step_transition (r r1 : Run) (w : Nat) (pc : Pc) (h : generatePatternImagesUsingThread r w pc = some r1) :
    WorkerTransition r w pc r1 := by
  cases pc with
  | loopHead =>
    simp only [generatePatternImagesUsingThread, Run.setPc] at h
    split at h <;> rename_i hc <;> simp only [Option.some.injEq] at h <;> subst h
    · exact WorkerTransition.exitEmpty (by simpa using hc)
    · exact WorkerTransition.enterLoop (by simpa using hc)
  | cancelCheck =>
    simp only [generatePatternImagesUsingThread, Run.setPc] at h
    split at h <;> rename_i hc <;> simp only [Option.some.injEq] at h <;> subst h
    · exact WorkerTransition.exitCancel hc
    · exact WorkerTransition.passCheck (by simpa using hc)
  | tryAcquire =>
    simp only [generatePatternImagesUsingThread, Run.setPc] at h
    split at h <;> rename_i hc <;> simp only [Option.some.injEq] at h <;> subst h
    · exact WorkerTransition.acquire hc
    · exact WorkerTransition.acquireFail (by omega)
  | locked =>
    simp only [generatePatternImagesUsingThread, Run.setPc] at h
    split at h <;> rename_i hc <;> simp only [Option.some.injEq] at h <;> subst h
    · exact WorkerTransition.testCurrent (by simpa using hc)
    · exact WorkerTransition.testPriority (by simpa using hc)
  | priorityBranch =>
    simp only [generatePatternImagesUsingThread, popPriorityBranch] at h
    split at h
    · rename_i index rest hp
      split at h
      · rename_i hfit
        simp only [Option.some.injEq] at h
        subst h
        exact WorkerTransition.popPriority index rest hp hfit
      · simp at h
    · simp at h
  | currentBranch =>
    simp only [generatePatternImagesUsingThread, popCurrentBranch] at h
    split at h
    · rename_i index rest hc
      simp only [Option.some.injEq] at h
      subst h
      exact WorkerTransition.popCurrent index rest hc
    · simp at h
  | setLoading index =>
    simp only [generatePatternImagesUsingThread, Option.some.injEq] at h
    subst h
    exact WorkerTransition.markLoading index
  | generate index =>
    simp only [generatePatternImagesUsingThread, generatePatternImage, if_true, Option.some.injEq] at h
    subst h
    exact WorkerTransition.markLoaded index
  | countFinished index =>
    simp only [generatePatternImagesUsingThread, Option.some.injEq] at h
    subst h
    exact WorkerTransition.count index
  | returned =>
    simp only [generatePatternImagesUsingThread, Option.some.injEq] at h
    subst h
    exact WorkerTransition.stay

/-- Case analysis of a step: a worker that exists makes a transition, a worker that does
not exist changes nothing, the UI calls change the controller fields only. -/
theorem step_cases (r r1 : Run) (e : Event) (h : step r e = some r1) :
    (∃ w pc, e = Event.worker w ∧ r.workers[w]? = some pc ∧ WorkerTransition r w pc r1) ∨
    (∃ w, e = Event.worker w ∧ r.workers[w]? = none ∧ r1 = r) ∨
    (∃ k, e = Event.addPriorityIndex k ∧ r1 = { r with ctl := addPriorityIndex r.ctl k }) ∨
    (e = Event.cancelGeneration ∧ r1 = { r with ctl := cancelGeneration r.ctl }) := by
  cases e with
  | worker w =>
    unfold step workerStep at h
    cases hw : r.workers[w]? with
    | none =>
      simp only [hw, Option.some.injEq] at h
      exact Or.inr (Or.inl ⟨w, rfl, hw, h.symm⟩)
    | some pc =>
      simp only [hw] at h
      exact Or.inl ⟨w, pc, rfl, hw, thread_step_transition r r1 w pc h⟩
  | addPriorityIndex k =>
    simp only [step, Option.some.injEq] at h
    exact Or.inr (Or.inr (Or.inl ⟨k, rfl, h.symm⟩))
  | cancelGeneration =>
    simp only [step, Option.some.injEq] at h
    exact Or.inr (Or.inr (Or.inr ⟨rfl, h.symm⟩))

theorem step_workers_length (r r1 : Run) (e : Event) (h : step r e = some r1) :
    r1.workers.length = r.workers.length := by
  rcases step_cases r r1 e h with ⟨w, pc, _, _, ht⟩ | ⟨w, _, _, rfl⟩ | ⟨k, _, rfl⟩ | ⟨_, rfl⟩
  · cases ht <;> simp
  · rfl
  · rfl
  · rfl

/-! ## Theorems: invariants of the worker loop -/

theorem sum_map_set (f : Pc → Nat) (l : List Pc) (w : Nat) (pc q : Pc)
    (hw : l[w]? = some pc) :
    ((l.set w q).map f).sum = (l.map f).sum - f pc + f q ∧ f pc ≤ (l.map f).sum := by
  induction l generalizing w with
  | nil => simp at hw
  | cons a t ih =>
    cases w with
    | zero =>
      simp only [List.getElem?_cons_zero, Option.some.injEq] at hw
      subst hw
      simp only [List.set_cons_zero, List.map_cons, List.sum_cons]
      omega
    | succ w =>
      simp only [List.getElem?_cons_succ] at hw
      have := ih w hw
      simp only [List.set_cons_succ, List.map_cons, List.sum_cons]
      omega

theorem countInv_step (r r1 : Run) (e : Event) (hi : CountInv r) (h : step r e = some r1) :
    CountInv r1 := by
  unfold CountInv at hi ⊢
  rcases step_cases r r1 e h with ⟨w, pc, _, hw, ht⟩ | ⟨w, _, _, rfl⟩ | ⟨k, _, rfl⟩ | ⟨_, rfl⟩
  · have k2 := (sum_map_set Pc.inFlight r.workers w pc pc hw).2
    cases ht <;>
      (try simp only [claims_append, completedIndices_append, claims, completedIndices,
        List.length_append, List.length_cons, List.length_nil, List.append_nil]) <;>
      first
        | exact hi
        | (rw [(sum_map_set Pc.inFlight r.workers w _ _ hw).1]
           simp only [Pc.inFlight] at k2 ⊢
           omega)
  · exact hi
  · exact hi
  · exact hi

theorem lt_length_of_getElem? {l : List Pc} {w : Nat} {pc : Pc} (hw : l[w]? = some pc) :
    w < l.length := by
  by_contra hc
  rw [List.getElem?_eq_none (by omega)] at hw
  simp at hw

theorem mem_set_self {l : List Pc} {w : Nat} {pc : Pc} (hw : l[w]? = some pc) (q : Pc) :
    q ∈ l.set w q := by
  rw [List.mem_iff_getElem?]
  exact ⟨w, by simp [List.getElem?_set, lt_length_of_getElem? hw]⟩

theorem mem_set_of_mem_ne {l : List Pc} {w : Nat} {pc : Pc} (hw : l[w]? = some pc) (q : Pc)
    {p : Pc} (hp : p ∈ l) (hne : p ≠ pc) : p ∈ l.set w q := by
  rw [List.mem_iff_getElem?] at hp ⊢
  obtain ⟨v, hv⟩ := hp
  have hvw : w ≠ v := by
    rintro rfl
    rw [hw] at hv
    exact hne (Option.some.inj hv).symm
  exact ⟨v, by rw [List.getElem?_set_ne hvw]; exact hv⟩

theorem mem_of_mem_set {l : List Pc} {w : Nat} {p q : Pc} (h : p ∈ l.set w q) :
    p = q ∨ p ∈ l := by
  rcases List.mem_or_eq_of_mem_set h with h1 | h1
  · exact Or.inr h1
  · exact Or.inl h1

theorem mem_of_getElem? {l : List Pc} {w : Nat} {pc : Pc} (hw : l[w]? = some pc) : pc ∈ l :=
  List.mem_iff_getElem?.2 ⟨w, hw⟩

theorem quietInv_step (order0 : List Nat) (r r1 : Run) (e : Event) (hi : QuietInv order0 r)
    (ha : e.isAddPriority = false) (h : step r e = some r1) : QuietInv order0 r1 := by
  unfold QuietInv at hi ⊢
  rcases step_cases r r1 e h with ⟨w, pc, _, hw, ht⟩ | ⟨w, _, _, rfl⟩ | ⟨k, rfl, rfl⟩ | ⟨_, rfl⟩
  · cases ht <;> try exact hi
    case popPriority index rest hp hfit =>
      rw [hi.1] at hp
      simp at hp
    case popCurrent index rest hc =>
      refine ⟨hi.1, ?_⟩
      have h2 := hi.2
      rw [hc] at h2
      simpa [claimedIndices, claims_append, claims] using h2
    case count index =>
      refine ⟨hi.1, ?_⟩
      simpa [claimedIndices, claims_append, claims] using hi.2
  · exact hi
  · simp [Event.isAddPriority] at ha
  · exact hi

theorem settled_frame (n : Nat) (r r1 : Run) (w : Nat) (pcOld pcNew : Pc)
    (hw : r.workers[w]? = some pcOld)
    (hOld : ∀ i, Pc.setLoading i ≠ pcOld ∧ Pc.generate i ≠ pcOld)
    (hc : r1.ctl.m_CurrentOrder = r.ctl.m_CurrentOrder) (hm : r1.model = r.model)
    (hws : r1.workers = r.workers.set w pcNew) (hi : SettledInv n r) : SettledInv n r1 := by
  intro i hlt
  rw [hc, hm, hws]
  rcases hi i hlt with hb | hs | hg | hl
  · exact Or.inl hb
  · exact Or.inr (Or.inl (mem_set_of_mem_ne hw _ hs (hOld i).1))
  · exact Or.inr (Or.inr (Or.inl (mem_set_of_mem_ne hw _ hg (hOld i).2)))
  · exact Or.inr (Or.inr (Or.inr hl))

theorem settledInv_step (n : Nat) (r r1 : Run) (e : Event) (hi : SettledInv n r)
    (h : step r e = some r1) : SettledInv n r1 := by
  rcases step_cases r r1 e h with ⟨w, pc, _, hw, ht⟩ | ⟨w, _, _, rfl⟩ | ⟨k, _, rfl⟩ | ⟨_, rfl⟩
  · cases ht
    case exitEmpty hc => exact settled_frame n r _ w _ _ hw (by simp) rfl rfl rfl hi
    case enterLoop hc => exact settled_frame n r _ w _ _ hw (by simp) rfl rfl rfl hi
    case exitCancel hc => exact settled_frame n r _ w _ _ hw (by simp) rfl rfl rfl hi
    case passCheck hc => exact settled_frame n r _ w _ _ hw (by simp) rfl rfl rfl hi
    case acquire hc => exact settled_frame n r _ w _ _ hw (by simp) rfl rfl rfl hi
    case acquireFail hc => exact settled_frame n r _ w _ _ hw (by simp) rfl rfl rfl hi
    case testPriority hc => exact settled_frame n r _ w _ _ hw (by simp) rfl rfl rfl hi
    case testCurrent hc => exact settled_frame n r _ w _ _ hw (by simp) rfl rfl rfl hi
    case count index => exact settled_frame n r _ w _ _ hw (by simp) rfl rfl rfl hi
    case stay => exact hi
    case popPriority index rest hp hfit =>
      intro i hlt
      rcases hi i hlt with hb | hs | hg | hl
      · by_cases hij : i = index
        · subst hij
          exact Or.inr (Or.inl (mem_set_self hw _))
        · exact Or.inl (by simp [hb, hij])
      · exact Or.inr (Or.inl (mem_set_of_mem_ne hw _ hs (by simp)))
      · exact Or.inr (Or.inr (Or.inl (mem_set_of_mem_ne hw _ hg (by simp))))
      · exact Or.inr (Or.inr (Or.inr hl))
    case popCurrent index rest hc =>
      intro i hlt
      rcases hi i hlt with hb | hs | hg | hl
      · rw [hc] at hb
        rcases List.mem_cons.1 hb with hij | hmem
        · subst hij
          exact Or.inr (Or.inl (mem_set_self hw _))
        · exact Or.inl hmem
      · exact Or.inr (Or.inl (mem_set_of_mem_ne hw _ hs (by simp)))
      · exact Or.inr (Or.inr (Or.inl (mem_set_of_mem_ne hw _ hg (by simp))))
      · exact Or.inr (Or.inr (Or.inr hl))
    case markLoading index =>
      intro i hlt
      by_cases hij : i = index
      · subst hij
        exact Or.inr (Or.inr (Or.inl (mem_set_self hw _)))
      · rcases hi i hlt with hb | hs | hg | hl
        · exact Or.inl hb
        · exact Or.inr (Or.inl (mem_set_of_mem_ne hw _ hs (by simp [hij])))
        · exact Or.inr (Or.inr (Or.inl (mem_set_of_mem_ne hw _ hg (by simp))))
        · exact Or.inr (Or.inr (Or.inr (by simp [setPatternStatus, hij, hl])))
    case markLoaded index =>
      intro i hlt
      by_cases hij : i = index
      · subst hij
        exact Or.inr (Or.inr (Or.inr (by simp [setPatternStatus])))
      · rcases hi i hlt with hb | hs | hg | hl
        · exact Or.inl hb
        · exact Or.inr (Or.inl (mem_set_of_mem_ne hw _ hs (by simp)))
        · exact Or.inr (Or.inr (Or.inl (mem_set_of_mem_ne hw _ hg (by simp [hij]))))
        · exact Or.inr (Or.inr (Or.inr (by simp [setPatternStatus, hij, hl])))
  · exact hi
  · exact hi
  · exact hi

theorem exitInv_step (r r1 : Run) (e : Event) (hi : ExitInv r)
    (ha : e.isCancel = false) (h : step r e = some r1) : ExitInv r1 := by
  unfold ExitInv at hi ⊢
  obtain ⟨hcl, hret⟩ := hi
  rcases step_cases r r1 e h with ⟨w, pc, _, hw, ht⟩ | ⟨w, _, _, rfl⟩ | ⟨k, _, rfl⟩ | ⟨rfl, rfl⟩
  · cases ht
    case exitEmpty hc => exact ⟨hcl, fun _ => hc⟩
    case exitCancel hc => rw [hcl] at hc; simp at hc
    case stay => exact ⟨hcl, hret⟩
    case popPriority index rest hp hfit =>
      refine ⟨hcl, fun hm => ?_⟩
      rcases mem_of_mem_set hm with h1 | h1
      · simp at h1
      · simp [hret h1]
    case popCurrent index rest hc =>
      refine ⟨hcl, fun hm => ?_⟩
      rcases mem_of_mem_set hm with h1 | h1
      · simp at h1
      · rw [hret h1] at hc
        simp at hc
    all_goals
      refine ⟨hcl, fun hm => ?_⟩
      rcases mem_of_mem_set hm with h1 | h1
      · simp at h1
      · exact hret h1
  · exact ⟨hcl, hret⟩
  · exact ⟨hcl, hret⟩
  · simp [Event.isCancel] at ha

theorem waiting_frame (r r1 : Run) (w : Nat) (pcNew : Pc)
    (hNew : ∀ i, Pc.setLoading i ≠ pcNew ∧ Pc.generate i ≠ pcNew)
    (hc : r1.ctl.m_CurrentOrder = r.ctl.m_CurrentOrder) (hm : r1.model = r.model)
    (hws : r1.workers = r.workers.set w pcNew) (hi : WaitingInv r) : WaitingInv r1 := by
  unfold WaitingInv at hi ⊢
  rw [hc, hm, hws]
  refine ⟨hi.1, fun i hmem => ⟨(hi.2 i hmem).1, fun hs => ?_, fun hg => ?_⟩⟩
  · rcases mem_of_mem_set hs with h1 | h1
    · exact (hNew i).1 h1
    · exact (hi.2 i hmem).2.1 h1
  · rcases mem_of_mem_set hg with h1 | h1
    · exact (hNew i).2 h1
    · exact (hi.2 i hmem).2.2 h1

theorem waitingInv_step (r r1 : Run) (e : Event) (hi : WaitingInv r)
    (h : step r e = some r1) : WaitingInv r1 := by
  rcases step_cases r r1 e h with ⟨w, pc, _, hw, ht⟩ | ⟨w, _, _, rfl⟩ | ⟨k, _, rfl⟩ | ⟨_, rfl⟩
  · cases ht
    case exitEmpty hc => exact waiting_frame r _ w _ (by simp) rfl rfl rfl hi
    case enterLoop hc => exact waiting_frame r _ w _ (by simp) rfl rfl rfl hi
    case exitCancel hc => exact waiting_frame r _ w _ (by simp) rfl rfl rfl hi
    case passCheck hc => exact waiting_frame r _ w _ (by simp) rfl rfl rfl hi
    case acquire hc => exact waiting_frame r _ w _ (by simp) rfl rfl rfl hi
    case acquireFail hc => exact waiting_frame r _ w _ (by simp) rfl rfl rfl hi
    case testPriority hc => exact waiting_frame r _ w _ (by simp) rfl rfl rfl hi
    case testCurrent hc => exact waiting_frame r _ w _ (by simp) rfl rfl rfl hi
    case count index => exact waiting_frame r _ w _ (by simp) rfl rfl rfl hi
    case stay => exact hi
    case popPriority index rest hp hfit =>
      unfold WaitingInv at hi ⊢
      refine ⟨hi.1.filter _, fun i hmem => ?_⟩
      simp only [List.mem_filter, bne_iff_ne, ne_eq] at hmem
      obtain ⟨hmem, hne⟩ := hmem
      refine ⟨(hi.2 i hmem).1, fun hs => ?_, fun hg => ?_⟩
      · rcases mem_of_mem_set hs with h1 | h1
        · simp at h1
          exact hne h1
        · exact (hi.2 i hmem).2.1 h1
      · rcases mem_of_mem_set hg with h1 | h1
        · simp at h1
        · exact (hi.2 i hmem).2.2 h1
    case popCurrent index rest hc =>
      unfold WaitingInv at hi ⊢
      obtain ⟨hnd, hall⟩ := hi
      rw [hc] at hnd hall
      have hnot : index ∉ rest := (List.nodup_cons.1 hnd).1
      refine ⟨(List.nodup_cons.1 hnd).2, fun i hmem => ?_⟩
      have hi2 := hall i (List.mem_cons_of_mem _ hmem)
      refine ⟨hi2.1, fun hs => ?_, fun hg => ?_⟩
      · rcases mem_of_mem_set hs with h1 | h1
        · simp at h1
          exact hnot (h1 ▸ hmem)
        · exact hi2.2.1 h1
      · rcases mem_of_mem_set hg with h1 | h1
        · simp at h1
        · exact hi2.2.2 h1
    case markLoading index =>
      unfold WaitingInv at hi ⊢
      refine ⟨hi.1, fun i hmem => ?_⟩
      have hi2 := hi.2 i hmem
      have hne : i ≠ index := by
        rintro rfl
        exact hi2.2.1 (mem_of_getElem? hw)
      refine ⟨by simp [setPatternStatus, hne, hi2.1], fun hs => ?_, fun hg => ?_⟩
      · rcases mem_of_mem_set hs with h1 | h1
        · simp at h1
        · exact hi2.2.1 h1
      · rcases mem_of_mem_set hg with h1 | h1
        · simp at h1
          exact hne h1
        · exact hi2.2.2 h1
    case markLoaded index =>
      unfold WaitingInv at hi ⊢
      refine ⟨hi.1, fun i hmem => ?_⟩
      have hi2 := hi.2 i hmem
      have hne : i ≠ index := by
        rintro rfl
        exact hi2.2.2 (mem_of_getElem? hw)
      refine ⟨by simp [setPatternStatus, hne, hi2.1], fun hs => ?_, fun hg => ?_⟩
      · rcases mem_of_mem_set hs with h1 | h1
        · simp at h1
        · exact hi2.2.1 h1
      · rcases mem_of_mem_set hg with h1 | h1
        · simp at h1
        · exact hi2.2.2 h1
  · exact hi
  · exact hi
  · exact hi

/-! ## Theorems: the state right after `generatePatternImages` -/

theorem orderLoop_snd (row : Int) (n : Nat) (model : StatusTable) (i : Nat) :
    (orderLoop row n model).2 i = if i < n then PatternStatus.WaitingToLoad else model i := by
  induction n with
  | zero => simp [orderLoop]
  | succ n ih =>
    rw [orderLoop_succ]
    have h2 : (orderLoopBody row (orderLoop row n model) n).2 =
        setPatternStatus (orderLoop row n model).2 n PatternStatus.WaitingToLoad := by
      unfold orderLoopBody
      split <;> rfl
    rw [h2]
    unfold setPatternStatus
    by_cases hin : i = n
    · simp [hin]
    · have h3 : (i < n + 1) = (i < n) := by
        apply propext
        omega
      simp only [hin, if_false, ih, h3]

theorem start_order (pre : Controller) (model : StatusTable) (pd : PatternDisplayData)
    (threads : Nat) :
    (generatePatternImages pre model pd threads).ctl.m_CurrentOrder =
      specOrder (angleCount pd) pd.currentRow := by
  simp [generatePatternImages, orderLoop_fst]

theorem mem_specOrder (n : Nat) (row : Int) (i : Nat) : i ∈ specOrder n row ↔ i < n := by
  rw [(specOrder_perm n row).mem_iff, List.mem_range]

theorem start_countInv (pre : Controller) (model : StatusTable) (pd : PatternDisplayData)
    (threads : Nat) : CountInv (generatePatternImages pre model pd threads) := by
  simp [CountInv, generatePatternImages, claims, completedIndices, Pc.inFlight]

theorem start_quietInv (pre : Controller) (model : StatusTable) (pd : PatternDisplayData)
    (threads : Nat) :
    QuietInv (specOrder (angleCount pd) pd.currentRow)
      (generatePatternImages pre model pd threads) := by
  refine ⟨rfl, ?_⟩
  rw [start_order]
  simp [generatePatternImages, claimedIndices, claims]

theorem start_settledInv (pre : Controller) (model : StatusTable) (pd : PatternDisplayData)
    (threads : Nat) : SettledInv (angleCount pd) (generatePatternImages pre model pd threads) := by
  intro i hlt
  left
  rw [start_order, mem_specOrder]
  exact hlt

theorem start_exitInv (pre : Controller) (model : StatusTable) (pd : PatternDisplayData)
    (threads : Nat) (hc : pre.m_Cancel = false) :
    ExitInv (generatePatternImages pre model pd threads) := by
  refine ⟨hc, fun hm => ?_⟩
  simp [generatePatternImages] at hm

theorem start_waitingInv (pre : Controller) (model : StatusTable) (pd : PatternDisplayData)
    (threads : Nat) : WaitingInv (generatePatternImages pre model pd threads) := by
  unfold WaitingInv
  rw [start_order]
  refine ⟨specOrder_nodup _ _, fun i hmem => ?_⟩
  rw [mem_specOrder] at hmem
  refine ⟨?_, ?_, ?_⟩
  · simp [generatePatternImages, orderLoop_snd, hmem]
  · simp [generatePatternImages]
  · simp [generatePatternImages]

/-! ## Theorems: a worker running alone terminates -/

theorem soloSchedule_add (a b : Nat) : soloSchedule (a + b) = soloSchedule a ++ soloSchedule b := by
  unfold soloSchedule
  exact List.replicate_add a b _

/-- One full loop iteration of worker `0` running alone: eight steps pop the front of the
order and come back to the loop head. -/
theorem solo_item (r : Run) (ws : List Pc) (i : Nat) (rest : List Nat)
    (hw : r.workers = Pc.loopHead :: ws) (hc : r.ctl.m_CurrentOrder = i :: rest)
    (hcl : r.ctl.m_Cancel = false) (hp : r.ctl.m_PriorityOrder = [])
    (hl : 0 < r.ctl.m_CurrentOrderLock) :
    ∃ r1, exec r (soloSchedule 8) = some r1 ∧ r1.workers = Pc.loopHead :: ws ∧
      r1.ctl.m_CurrentOrder = rest ∧ r1.ctl.m_Cancel = false ∧ r1.ctl.m_PriorityOrder = [] ∧
      0 < r1.ctl.m_CurrentOrderLock := by
  obtain ⟨ctl, model, workers, trace⟩ := r
  obtain ⟨fin, finT, cur, prio, cancel, lock⟩ := ctl
  simp only at hw hc hcl hp hl
  subst hw hc hcl hp
  have hs : soloSchedule 8 = [Event.worker 0, Event.worker 0, Event.worker 0, Event.worker 0,
      Event.worker 0, Event.worker 0, Event.worker 0, Event.worker 0] := rfl
  rw [hs]
  simp [exec, step, workerStep, generatePatternImagesUsingThread, popCurrentBranch, Run.setPc,
    hl, generatePatternImage]

theorem solo_all (b : List Nat) : ∀ (r : Run) (ws : List Pc),
    r.workers = Pc.loopHead :: ws → r.ctl.m_CurrentOrder = b → r.ctl.m_Cancel = false →
    r.ctl.m_PriorityOrder = [] → 0 < r.ctl.m_CurrentOrderLock →
    ∃ r1, exec r (soloSchedule (8 * b.length)) = some r1 ∧ r1.workers = Pc.loopHead :: ws ∧
      r1.ctl.m_CurrentOrder = [] := by
  induction b with
  | nil =>
    intro r ws hw hc _ _ _
    exact ⟨r, by simp [soloSchedule, exec], hw, hc⟩
  | cons i rest ih =>
    intro r ws hw hc hcl hp hl
    obtain ⟨r1, h1, hw1, hc1, hcl1, hp1, hl1⟩ := solo_item r ws i rest hw hc hcl hp hl
    obtain ⟨r2, h2, hw2, hc2⟩ := ih r1 ws hw1 hc1 hcl1 hp1 hl1
    refine ⟨r2, ?_, hw2, hc2⟩
    have hlen : 8 * (i :: rest).length = 8 + 8 * rest.length := by
      simp only [List.length_cons]
      omega
    rw [hlen, soloSchedule_add, exec_append, h1]
    exact h2

/-- With an empty order, letting the first `k` workers take one step each makes every one
of them that was at the loop head return. -/
theorem drain (k : Nat) : ∀ (r : Run), r.ctl.m_CurrentOrder = [] →
    (∀ pc ∈ r.workers, pc = Pc.loopHead ∨ pc = Pc.returned) →
    ∃ r1, exec r ((List.range k).map Event.worker) = some r1 ∧
      r1.ctl = r.ctl ∧ r1.trace = r.trace ∧ r1.model = r.model ∧
      r1.workers.length = r.workers.length ∧
      (∀ pc ∈ r1.workers, pc = Pc.loopHead ∨ pc = Pc.returned) ∧
      (∀ v pc, v < k → r1.workers[v]? = some pc → pc = Pc.returned) := by
  induction k with
  | zero =>
    intro r _ hall
    exact ⟨r, by simp [exec], rfl, rfl, rfl, rfl, hall, fun v pc hv => by omega⟩
  | succ k ih =>
    intro r hc hall
    obtain ⟨r1, h1, hctl, htr, hmod, hlen, hall1, hret⟩ := ih r hc hall
    have hc1 : r1.ctl.m_CurrentOrder = [] := by rw [hctl]; exact hc
    rw [List.range_succ, List.map_append, exec_append, h1]
    simp only [List.map_cons, List.map_nil, Option.some_bind, exec, step, workerStep]
    cases hk : r1.workers[k]? with
    | none =>
      refine ⟨r1, by simp, hctl, htr, hmod, hlen, hall1, fun v pc hv hvpc => ?_⟩
      by_cases hvk : v = k
      · subst hvk
        rw [hk] at hvpc
        simp at hvpc
      · exact hret v pc (by omega) hvpc
    | some pc0 =>
      rcases hall1 pc0 (mem_of_getElem? hk) with rfl | rfl
      · refine ⟨r1.setPc k Pc.returned, by simp [generatePatternImagesUsingThread, hc1], hctl, htr, hmod,
          by simp [Run.setPc, hlen], fun pc hm => ?_, fun v pc hv hvpc => ?_⟩
        · rcases mem_of_mem_set hm with h2 | h2
          · exact Or.inr h2
          · exact hall1 pc h2
        · by_cases hvk : v = k
          · subst hvk
            simp only [Run.setPc, List.getElem?_set, lt_length_of_getElem? hk, if_true,
              Option.some.injEq] at hvpc
            exact hvpc.symm
          · have hkv : k ≠ v := fun h => hvk h.symm
            simp only [Run.setPc, List.getElem?_set_ne hkv] at hvpc
            exact hret v pc (by omega) hvpc
      · refine ⟨r1, by simp [generatePatternImagesUsingThread], hctl, htr, hmod, hlen, hall1, fun v pc hv hvpc => ?_⟩
        by_cases hvk : v = k
        · subst hvk
          rw [hk] at hvpc
          exact (Option.some.inj hvpc).symm
        · exact hret v pc (by omega) hvpc

/-- Existence of a complete run: from the state left by `generatePatternImages` with the
flag clear and the semaphore free, worker `0` running alone for eight steps per index and
then one step of every worker makes all workers return. -/
theorem sequential_run_returns (pre : Controller) (model : StatusTable)
    (pd : PatternDisplayData) (threads : Nat) (hT : 0 < threads)
    (hc : pre.m_Cancel = false) (hl : 0 < pre.m_CurrentOrderLock) :
    ∃ r, exec (generatePatternImages pre model pd threads)
        (sequentialSchedule (8 * angleCount pd) threads) = some r ∧
      ∀ pc ∈ r.workers, pc = Pc.returned := by
  obtain ⟨t, rfl⟩ : ∃ t, threads = t + 1 := ⟨threads - 1, by omega⟩
  have hlen : (specOrder (angleCount pd) pd.currentRow).length = angleCount pd := by
    rw [(specOrder_perm _ _).length_eq, List.length_range]
  obtain ⟨r1, h1, hw1, hc1⟩ := solo_all (specOrder (angleCount pd) pd.currentRow)
    (generatePatternImages pre model pd (t + 1)) (List.replicate t Pc.loopHead)
    (by simp [generatePatternImages, List.replicate_succ]) (start_order _ _ _ _) hc rfl hl
  rw [hlen] at h1
  obtain ⟨r2, h2, _, _, _, hlen2, _, hret⟩ := drain (t + 1) r1 hc1 (by
    intro pc hm
    rw [hw1] at hm
    rcases List.mem_cons.1 hm with h | h
    · exact Or.inl h
    · exact Or.inl (List.eq_of_mem_replicate h))
  refine ⟨r2, ?_, fun pc hm => ?_⟩
  · rw [sequentialSchedule, exec_append, h1]
    exact h2
  · obtain ⟨v, hv⟩ := List.mem_iff_getElem?.1 hm
    have hvlt := lt_length_of_getElem? hv
    rw [hlen2, hw1] at hvlt
    simp at hvlt
    exact hret v pc (by omega) hv

/-! ## Theorems: complete runs -/

theorem singleInv_step (r r1 : Run) (e : Event) (hi : SingleInv r) (h : step r e = some r1) :
    SingleInv r1 := by
  obtain ⟨pc0, hws, hcl⟩ := hi
  rcases step_cases r r1 e h with ⟨w, pc, _, hw, ht⟩ | ⟨w, _, _, rfl⟩ | ⟨k, _, rfl⟩ | ⟨_, rfl⟩
  · have hw0 : w = 0 := by
      have := lt_length_of_getElem? hw
      rw [hws] at this
      simpa using this
    subst hw0
    rw [hws] at hw
    simp only [List.getElem?_cons_zero, Option.some.injEq] at hw
    subst hw
    cases ht
    case stay => exact ⟨_, hws, hcl⟩
    case popPriority index rest hp hfit =>
      exact ⟨Pc.setLoading index, by simp [hws], by
        simpa [claimedIndices, claims_append, completedIndices_append, claims, completedIndices,
          Pc.holding] using hcl⟩
    case popCurrent index rest hc =>
      exact ⟨Pc.setLoading index, by simp [hws], by
        simpa [claimedIndices, claims_append, completedIndices_append, claims, completedIndices,
          Pc.holding] using hcl⟩
    case count index =>
      exact ⟨Pc.loopHead, by simp [hws], by
        simpa [claimedIndices, claims_append, completedIndices_append, claims, completedIndices,
          Pc.holding] using hcl⟩
    case exitEmpty hc => exact ⟨Pc.returned, by simp [hws], by simpa [Pc.holding] using hcl⟩
    case enterLoop hc => exact ⟨Pc.cancelCheck, by simp [hws], by simpa [Pc.holding] using hcl⟩
    case exitCancel hc => exact ⟨Pc.returned, by simp [hws], by simpa [Pc.holding] using hcl⟩
    case passCheck hc => exact ⟨Pc.tryAcquire, by simp [hws], by simpa [Pc.holding] using hcl⟩
    case acquire hc => exact ⟨Pc.locked, by simp [hws], by simpa [Pc.holding] using hcl⟩
    case testPriority hc =>
      exact ⟨Pc.priorityBranch, by simp [hws], by simpa [Pc.holding] using hcl⟩
    case testCurrent hc =>
      exact ⟨Pc.currentBranch, by simp [hws], by simpa [Pc.holding] using hcl⟩
    case acquireFail hc => exact ⟨Pc.loopHead, by simp [hws], by simpa [Pc.holding] using hcl⟩
    case markLoading index =>
      exact ⟨Pc.generate index, by simp [hws], by simpa [Pc.holding] using hcl⟩
    case markLoaded index =>
      exact ⟨Pc.countFinished index, by simp [hws], by simpa [Pc.holding] using hcl⟩
  · exact ⟨_, hws, hcl⟩
  · exact ⟨_, hws, hcl⟩
  · exact ⟨_, hws, hcl⟩

theorem inFlight_sum_zero (l : List Pc) (h : ∀ pc ∈ l, pc = Pc.returned) :
    (l.map Pc.inFlight).sum = 0 := by
  induction l with
  | nil => rfl
  | cons a t ih =>
    have ha := h a (List.mem_cons_self _ _)
    subst ha
    simp only [List.map_cons, List.sum_cons, Pc.inFlight, Nat.zero_add]
    exact ih (fun pc hm => h pc (List.mem_cons_of_mem _ hm))

theorem exec_workers_length (es : List Event) (r r1 : Run) (h : exec r es = some r1) :
    r1.workers.length = r.workers.length :=
  exec_invariant (fun x => x.workers.length = r.workers.length) (fun _ => True)
    (fun a e b ha _ hs => (step_workers_length a b e hs).trans ha) es r r1 rfl
    (fun _ _ => trivial) h

/-- With two workers and one index, both workers can pass the loop condition before either
pops; the second one then calls `front()` on an empty list.  The loop condition is read
outside the semaphore. -/
theorem two_workers_can_reach_front_of_empty_order :
    exec (generatePatternImages Controller.fresh StatusTable.fresh ⟨3, 0⟩ 2)
      [Event.worker 0, Event.worker 0, Event.worker 1, Event.worker 1,
        Event.worker 0, Event.worker 0, Event.worker 0,
        Event.worker 1, Event.worker 1, Event.worker 1] = none := by
  rfl

/-- What every quiet schedule keeps: counting, order, settled statuses and exit conditions. -/
theorem quiet_run_invariants (pre : Controller) (model : StatusTable) (pd : PatternDisplayData)
    (threads : Nat) (hc : pre.m_Cancel = false) (es : List Event) (r : Run)
    (hes : ∀ e ∈ es, e.isWorker)
    (h : exec (generatePatternImages pre model pd threads) es = some r) :
    CountInv r ∧ QuietInv (specOrder (angleCount pd) pd.currentRow) r ∧
      SettledInv (angleCount pd) r ∧ ExitInv r :=
  exec_invariant
    (fun x => CountInv x ∧ QuietInv (specOrder (angleCount pd) pd.currentRow) x ∧
      SettledInv (angleCount pd) x ∧ ExitInv x)
    Event.isWorker
    (fun a e b ha hal hs =>
      ⟨countInv_step a b e ha.1 hs, quietInv_step _ a b e ha.2.1 hal.1 hs,
        settledInv_step _ a b e ha.2.2.1 hs, exitInv_step a b e ha.2.2.2 hal.2 hs⟩)
    es _ r
    ⟨start_countInv _ _ _ _, start_quietInv _ _ _ _, start_settledInv _ _ _ _,
      start_exitInv _ _ _ _ hc⟩
    hes h

/-- What holds when the cancel flag is clear and the semaphore free at start: in every
schedule of worker steps only, once all worker loops have returned every index below the
angle count has status `Loaded`, the finished count equals the angle count and the claimed
indices are a permutation of the indices; and the schedule that runs worker `0` alone and
then lets every worker take one step makes all workers return.  Schedules that end in
`none` are not covered. -/
theorem flag_clear_completed_run_all_settled (pre : Controller) (model : StatusTable)
    (pd : PatternDisplayData) (threads : Nat) (hT : 0 < threads)
    (hc : pre.m_Cancel = false) (hl : 0 < pre.m_CurrentOrderLock) :
    (∀ (es : List Event) (r : Run), (∀ e ∈ es, e.isWorker) →
      exec (generatePatternImages pre model pd threads) es = some r →
      (∀ pc ∈ r.workers, pc = Pc.returned) →
        (∀ i, i < angleCount pd →
          r.model i = PatternStatus.Loaded ∨ r.model i = PatternStatus.Error) ∧
        r.ctl.m_NumOfFinishedPatterns = angleCount pd ∧
        (claimedIndices r.trace).Perm (List.range (angleCount pd)) ∧
        (angleCount pd = 0 → r.trace = [] ∧ r.ctl.m_NumOfFinishedPatterns = 0)) ∧
    (∃ r, exec (generatePatternImages pre model pd threads)
        (sequentialSchedule (8 * angleCount pd) threads) = some r ∧
      ∀ pc ∈ r.workers, pc = Pc.returned) := by
  refine ⟨fun es r hes h hret => ?_, sequential_run_returns pre model pd threads hT hc hl⟩
  obtain ⟨hcount, hquiet, hsettled, hexit⟩ := quiet_run_invariants pre model pd threads hc es r hes h
  have hlen : r.workers.length = threads := by
    rw [exec_workers_length es _ r h]
    simp [generatePatternImages]
  have hne : r.workers ≠ [] := by
    intro h0
    rw [h0] at hlen
    simp at hlen
    omega
  obtain ⟨pc0, hpc0⟩ := List.exists_mem_of_ne_nil _ hne
  have hempty : r.ctl.m_CurrentOrder = [] := hexit.2 (hret pc0 hpc0 ▸ hpc0)
  have hclaimed : claimedIndices r.trace = specOrder (angleCount pd) pd.currentRow := by
    have := hquiet.2
    rw [hempty, List.append_nil] at this
    exact this
  have hperm : (claimedIndices r.trace).Perm (List.range (angleCount pd)) := by
    rw [hclaimed]
    exact specOrder_perm _ _
  have hfin : r.ctl.m_NumOfFinishedPatterns = angleCount pd := by
    have h1 := hcount.1
    rw [inFlight_sum_zero _ hret] at h1
    have h2 : (claims r.trace).length = (claimedIndices r.trace).length := by
      simp [claimedIndices]
    have h3 := hperm.length_eq
    rw [List.length_range] at h3
    omega
  refine ⟨fun i hlt => Or.inl ?_, hfin, hperm, fun h0 => ⟨?_, by omega⟩⟩
  · rcases hsettled i hlt with hb | hs | hg | hm
    · rw [hempty] at hb
      simp at hb
    · have := hret _ hs
      simp at this
    · have := hret _ hg
      simp at this
    · exact hm
  · have h1 := hcount.2
    have h2 : (claims r.trace).length = 0 := by
      have := hcount.1
      rw [inFlight_sum_zero _ hret] at this
      omega
    have h3 : (completedIndices r.trace).length = 0 := by omega
    generalize r.trace = t at h2 h3
    cases t with
    | nil => rfl
    | cons o t => cases o <;> simp [claims, completedIndices] at h2 h3

/-- C3 (the code departs from the claim): a run with no `cancelGeneration` call and no
`addPriorityIndex` call in which all worker loops exit without the indices being processed.
`cancelGeneration()` was called on the idle controller before the run; `generatePatternImages`
does not clear `m_Cancel`.  Two indices, current row `1`, one worker: after the loop
condition and the flag check the worker has returned, the finished count is `0`, both
statuses are `WaitingToLoad` and nothing was claimed.  A second run, with the flag clear,
one index and two workers, in which both workers pass the loop condition before either pops,
reaches `front()` on an empty list. -/
theorem stale_flag_run_exits_unprocessed :
    angleCount ⟨6, 1⟩ = 2 ∧
    (exec (generatePatternImages (cancelGeneration Controller.fresh) StatusTable.fresh ⟨6, 1⟩ 1)
        [Event.worker 0, Event.worker 0]).map
      (fun r => (r.workers, r.ctl.m_NumOfFinishedPatterns, r.model 0, r.model 1, r.trace)) =
      some ([Pc.returned], 0, PatternStatus.WaitingToLoad, PatternStatus.WaitingToLoad, []) ∧
    exec (generatePatternImages Controller.fresh StatusTable.fresh ⟨3, 0⟩ 2)
      [Event.worker 0, Event.worker 0, Event.worker 1, Event.worker 1,
        Event.worker 0, Event.worker 0, Event.worker 0,
        Event.worker 1, Event.worker 1, Event.worker 1] = none := by
  refine ⟨by decide, by decide, rfl⟩

/-! ## Theorems: a pool of one worker -/

theorem start_singleInv (pre : Controller) (model : StatusTable) (pd : PatternDisplayData) :
    SingleInv (generatePatternImages pre model pd 1) :=
  ⟨Pc.loopHead, by simp [generatePatternImages], by
    simp [generatePatternImages, claimedIndices, claims, completedIndices, Pc.holding]⟩

theorem sequentialSchedule_one (k : Nat) : sequentialSchedule k 1 = soloSchedule (k + 1) := by
  rw [soloSchedule_add]
  rfl

theorem soloInv_step (r r1 : Run) (e : Event) (hi : SoloInv r)
    (ha : e.isAddPriority = false) (h : step r e = some r1) : SoloInv r1 := by
  obtain ⟨pc0, hws, hp0, hnp, hne⟩ := hi
  rcases step_cases r r1 e h with ⟨w, pc, _, hw, ht⟩ | ⟨w, _, _, rfl⟩ | ⟨k, rfl, rfl⟩ | ⟨_, rfl⟩
  · have hw0 : w = 0 := by
      have := lt_length_of_getElem? hw
      rw [hws] at this
      simpa using this
    subst hw0
    rw [hws] at hw
    simp only [List.getElem?_cons_zero, Option.some.injEq] at hw
    subst hw
    cases ht
    case stay => exact ⟨_, hws, hp0, hnp, hne⟩
    case exitEmpty hc => exact ⟨Pc.returned, by simp [hws], hp0, by simp, by simp⟩
    case enterLoop hc => exact ⟨Pc.cancelCheck, by simp [hws], hp0, by simp, fun _ => hc⟩
    case exitCancel hc => exact ⟨Pc.returned, by simp [hws], hp0, by simp, by simp⟩
    case passCheck hc =>
      exact ⟨Pc.tryAcquire, by simp [hws], hp0, by simp, fun _ => hne (by simp)⟩
    case acquire hc => exact ⟨Pc.locked, by simp [hws], hp0, by simp, fun _ => hne (by simp)⟩
    case acquireFail hc => exact ⟨Pc.loopHead, by simp [hws], hp0, by simp, by simp⟩
    case testPriority hc => exact absurd hp0 hc
    case testCurrent hc =>
      exact ⟨Pc.currentBranch, by simp [hws], hp0, by simp, fun _ => hne (by simp)⟩
    case popPriority index rest hp hfit => exact absurd rfl hnp
    case popCurrent index rest hc =>
      exact ⟨Pc.setLoading index, by simp [hws], hp0, by simp, by simp⟩
    case markLoading index => exact ⟨Pc.generate index, by simp [hws], hp0, by simp, by simp⟩
    case markLoaded index =>
      exact ⟨Pc.countFinished index, by simp [hws], hp0, by simp, by simp⟩
    case count index => exact ⟨Pc.loopHead, by simp [hws], hp0, by simp, by simp⟩
  · exact ⟨_, hws, hp0, hnp, hne⟩
  · simp [Event.isAddPriority] at ha
  · exact ⟨_, hws, hp0, hnp, hne⟩

theorem soloInv_progress (r : Run) (e : Event) (hi : SoloInv r) : ∃ r1, step r e = some r1 := by
  obtain ⟨pc0, hws, hp0, hnp, hne⟩ := hi
  cases e with
  | addPriorityIndex k => exact ⟨_, rfl⟩
  | cancelGeneration => exact ⟨_, rfl⟩
  | worker w =>
    simp only [step, workerStep]
    cases hw : r.workers[w]? with
    | none => exact ⟨r, rfl⟩
    | some pc =>
      have hpc : pc = pc0 := by
        have hm := mem_of_getElem? hw
        rw [hws] at hm
        simpa using hm
      subst hpc
      cases pc with
      | locked =>
        simp only [generatePatternImagesUsingThread]
        split <;> exact ⟨_, rfl⟩
      | priorityBranch => exact absurd rfl hnp
      | currentBranch =>
        have hb := hne (by simp)
        simp only [generatePatternImagesUsingThread, popCurrentBranch]
        cases hc : r.ctl.m_CurrentOrder with
        | nil => exact absurd hc hb
        | cons index rest => exact ⟨_, rfl⟩
      | loopHead =>
        simp only [generatePatternImagesUsingThread]
        split <;> exact ⟨_, rfl⟩
      | cancelCheck =>
        simp only [generatePatternImagesUsingThread]
        split <;> exact ⟨_, rfl⟩
      | tryAcquire =>
        simp only [generatePatternImagesUsingThread]
        split <;> exact ⟨_, rfl⟩
      | setLoading index => exact ⟨_, rfl⟩
      | generate index => exact ⟨_, rfl⟩
      | countFinished index => exact ⟨_, rfl⟩
      | returned => exact ⟨_, rfl⟩

theorem solo_never_faults (es : List Event) : ∀ (r : Run), SoloInv r →
    (∀ e ∈ es, e.isWorker) → ∃ r1, exec r es = some r1 := by
  induction es with
  | nil => exact fun r _ _ => ⟨r, rfl⟩
  | cons e es ih =>
    intro r hi hes
    obtain ⟨r1, h1⟩ := soloInv_progress r e hi
    obtain ⟨r2, h2⟩ := ih r1
      (soloInv_step r r1 e hi (hes e (List.mem_cons_self _ _)).1 h1)
      (fun e1 he1 => hes e1 (List.mem_cons_of_mem _ he1))
    exact ⟨r2, by simp only [exec, h1, Option.some_bind]; exact h2⟩

/-- C6: with a pool of one worker, the cancel flag clear and the semaphore free at start,
and worker steps only (no `addPriorityIndex`, no `cancelGeneration`): the worker running
for eight steps per index and one more returns, and the indices it claimed, and the indices
it finished, in order, are exactly the order built at start, that is the current row
followed by the remaining indices ascending (the plain ascending list when the row is out
of range); every such schedule runs without calling `front()` on an empty list, and at
every point of it the finished indices, the index in progress and the remaining order
together are that order. -/
theorem single_worker_processing_order (pre : Controller) (model : StatusTable)
    (pd : PatternDisplayData) (hc : pre.m_Cancel = false) (hl : 0 < pre.m_CurrentOrderLock) :
    (∃ r, exec (generatePatternImages pre model pd 1) (soloSchedule (8 * angleCount pd + 1)) =
        some r ∧ r.workers = [Pc.returned] ∧
      claimedIndices r.trace =
        (if 0 ≤ pd.currentRow ∧ pd.currentRow < angleCount pd then
          pd.currentRow.toNat ::
            (List.range (angleCount pd)).filter (fun i => i ≠ pd.currentRow.toNat)
         else List.range (angleCount pd)) ∧
      completedIndices r.trace =
        (if 0 ≤ pd.currentRow ∧ pd.currentRow < angleCount pd then
          pd.currentRow.toNat ::
            (List.range (angleCount pd)).filter (fun i => i ≠ pd.currentRow.toNat)
         else List.range (angleCount pd))) ∧
    (∀ (es : List Event), (∀ e ∈ es, e.isWorker) →
      ∃ r pc, exec (generatePatternImages pre model pd 1) es = some r ∧ r.workers = [pc] ∧
        completedIndices r.trace ++ pc.holding ++ r.ctl.m_CurrentOrder =
          (if 0 ≤ pd.currentRow ∧ pd.currentRow < angleCount pd then
            pd.currentRow.toNat ::
              (List.range (angleCount pd)).filter (fun i => i ≠ pd.currentRow.toNat)
           else List.range (angleCount pd))) := by
  have hspec : (if 0 ≤ pd.currentRow ∧ pd.currentRow < angleCount pd then
          pd.currentRow.toNat ::
            (List.range (angleCount pd)).filter (fun i => i ≠ pd.currentRow.toNat)
         else List.range (angleCount pd)) = specOrder (angleCount pd) pd.currentRow := rfl
  rw [hspec]
  have hgen : ∀ (es : List Event) (r : Run), (∀ e ∈ es, e.isWorker) →
      exec (generatePatternImages pre model pd 1) es = some r →
      ∃ pc, r.workers = [pc] ∧
        completedIndices r.trace ++ pc.holding ++ r.ctl.m_CurrentOrder =
          specOrder (angleCount pd) pd.currentRow ∧
        claimedIndices r.trace ++ r.ctl.m_CurrentOrder =
          specOrder (angleCount pd) pd.currentRow := by
    intro es r hes h
    have hq := (quiet_run_invariants pre model pd 1 hc es r hes h).2.1
    have hs : SingleInv r :=
      exec_invariant SingleInv (fun _ => True) (fun a e b ha _ hst => singleInv_step a b e ha hst)
        es _ r (start_singleInv pre model pd) (fun _ _ => trivial) h
    obtain ⟨pc, hws, hcl⟩ := hs
    exact ⟨pc, hws, by rw [← hcl]; exact hq.2, hq.2⟩
  refine ⟨?_, fun es hes => ?_⟩
  · obtain ⟨r, hr, hret⟩ := sequential_run_returns pre model pd 1 (by decide) hc hl
    rw [sequentialSchedule_one] at hr
    have hes : ∀ e ∈ soloSchedule (8 * angleCount pd + 1), e.isWorker := by
      intro e he
      rw [soloSchedule, List.mem_replicate] at he
      rw [he.2]
      exact ⟨rfl, rfl⟩
    obtain ⟨pc, hws, hdone, hclaimed⟩ := hgen _ r hes hr
    have hpc : pc = Pc.returned := hret pc (by rw [hws]; exact List.mem_cons_self _ _)
    subst hpc
    have hempty : r.ctl.m_CurrentOrder = [] :=
      (quiet_run_invariants pre model pd 1 hc _ r hes hr).2.2.2.2
        (by rw [hws]; exact List.mem_cons_self _ _)
    rw [hempty] at hdone hclaimed
    simp only [Pc.holding, List.append_nil] at hdone hclaimed
    exact ⟨r, hr, hws, hclaimed, hdone⟩
  · obtain ⟨r, h⟩ := solo_never_faults es (generatePatternImages pre model pd 1)
      ⟨Pc.loopHead, by simp [generatePatternImages], rfl, by simp, by simp⟩ hes
    obtain ⟨pc, hws, hdone, _⟩ := hgen es r hes h
    exact ⟨r, pc, h, hws, hdone⟩

/-- Witness for C6, the scenario of the specification: five indices, current row `2`, one
worker; the processing order is `[2, 0, 1, 3, 4]`. -/
theorem single_worker_processing_order_witness :
    ∃ r, exec (generatePatternImages Controller.fresh StatusTable.fresh ⟨15, 2⟩ 1)
        (soloSchedule 41) = some r ∧ r.workers = [Pc.returned] ∧
      claimedIndices r.trace = [2, 0, 1, 3, 4] ∧ completedIndices r.trace = [2, 0, 1, 3, 4] :=
  (single_worker_processing_order Controller.fresh StatusTable.fresh ⟨15, 2⟩ rfl
    (by decide)).1

/-! ## Theorems: re-queued indices -/

/-- C2 (the code departs from the claim): two indices, current row `0`, one worker.  The
worker claims and finishes index `0`; then `addPriorityIndex(0)` is called; the next loop
iteration pops `0` from `m_PriorityOrder` and processes it a second time.  At the end the
finished count is `3` although the angle count is `2`. -/
theorem reprioritized_index_processed_twice :
    angleCount ⟨6, 0⟩ = 2 ∧
    (exec (generatePatternImages Controller.fresh StatusTable.fresh ⟨6, 0⟩ 1)
        (soloSchedule 8 ++ [Event.addPriorityIndex 0] ++ soloSchedule 17)).map
      (fun r => (r.trace, r.ctl.m_NumOfFinishedPatterns, r.workers)) =
    some ([Obs.claimed 0 false, Obs.completed 0, Obs.claimed 0 true, Obs.completed 0,
      Obs.claimed 1 false, Obs.completed 1], 3, [Pc.returned]) := by
  decide

/-! ## Theorems: priority requests -/

theorem split_snoc {α : Type} (L : List α) (c0 : α) (pre : List α) (c : α) (post : List α)
    (h : L ++ [c0] = pre ++ c :: post) :
    (post = [] ∧ pre = L ∧ c = c0) ∨ (∃ post1, post = post1 ++ [c0] ∧ L = pre ++ c :: post1) := by
  rcases List.eq_nil_or_concat post with rfl | ⟨post1, a, rfl⟩
  · left
    have := List.append_inj' h rfl
    simp only [List.cons.injEq, and_true] at this
    exact ⟨rfl, this.1.symm, this.2.symm⟩
  · right
    have h2 : L ++ [c0] = (pre ++ c :: post1) ++ [a] := by simpa using h
    have := List.append_inj' h2 rfl
    simp only [List.cons.injEq, and_true] at this
    exact ⟨post1, by rw [this.2, List.concat_eq_append], this.1⟩

theorem leading_segment (a : List Nat) : ∀ (p b c : List Nat) (x k : Nat),
    a ++ x :: b = p ++ k :: c → k ∉ a → ∃ rest, a ++ x :: rest = p ++ [k] := by
  induction a with
  | nil =>
    intro p b c x k h _
    cases p with
    | nil =>
      simp only [List.nil_append, List.cons.injEq] at h
      exact ⟨[], by simp [h.1]⟩
    | cons y p1 =>
      simp only [List.nil_append, List.cons_append, List.cons.injEq] at h
      exact ⟨p1 ++ [k], by simp [h.1]⟩
  | cons y a1 ih =>
    intro p b c x k h hk
    cases p with
    | nil =>
      simp only [List.nil_append, List.cons_append, List.cons.injEq] at h
      exact absurd (List.mem_cons.2 (Or.inl h.1.symm)) hk
    | cons z p1 =>
      simp only [List.cons_append, List.cons.injEq] at h
      obtain ⟨rest, hr⟩ := ih p1 b c x k h.2 (fun hm => hk (List.mem_cons_of_mem _ hm))
      exact ⟨rest, by simp [h.1, hr]⟩

theorem priorityInv_same (p0 : List Nat) (k : Nat) (base : List Obs) (x y : Run)
    (ht : y.trace = x.trace) (hc : y.ctl.m_CurrentOrder = x.ctl.m_CurrentOrder)
    (hp : y.ctl.m_PriorityOrder = x.ctl.m_PriorityOrder)
    (hb : Pc.currentBranch ∈ y.workers → Pc.currentBranch ∈ x.workers)
    (hi : PriorityInv p0 k base x) : PriorityInv p0 k base y := by
  obtain ⟨new, h1, h2, h3, h4⟩ := hi
  refine ⟨new, by rw [ht, h1], h2, by rw [hc]; exact h3, fun hk => ?_⟩
  obtain ⟨h5, h6, h7⟩ := h4 hk
  exact ⟨by rw [hc]; exact h5, fun hm => h6 (hb hm), by rw [hp]; exact h7⟩

theorem priorityInv_step (p0 : List Nat) (k : Nat) (base : List Obs) (r r1 : Run) (e : Event)
    (hi : PriorityInv p0 k base r) (h : step r e = some r1) : PriorityInv p0 k base r1 := by
  rcases step_cases r r1 e h with ⟨w, pc, _, hw, ht⟩ | ⟨w, _, _, rfl⟩ | ⟨j, _, rfl⟩ | ⟨_, rfl⟩
  · have hcb : ∀ q, q ≠ Pc.currentBranch → Pc.currentBranch ∈ r.workers.set w q →
        Pc.currentBranch ∈ r.workers :=
      fun q hq hm => (mem_of_mem_set hm).resolve_left (fun he => hq he.symm)
    cases ht
    case exitEmpty hc => exact priorityInv_same p0 k base r _ rfl rfl rfl (hcb _ (by simp)) hi
    case enterLoop hc => exact priorityInv_same p0 k base r _ rfl rfl rfl (hcb _ (by simp)) hi
    case exitCancel hc => exact priorityInv_same p0 k base r _ rfl rfl rfl (hcb _ (by simp)) hi
    case passCheck hc => exact priorityInv_same p0 k base r _ rfl rfl rfl (hcb _ (by simp)) hi
    case acquire hc => exact priorityInv_same p0 k base r _ rfl rfl rfl (hcb _ (by simp)) hi
    case acquireFail hc => exact priorityInv_same p0 k base r _ rfl rfl rfl (hcb _ (by simp)) hi
    case testPriority hc =>
      exact priorityInv_same p0 k base r _ rfl rfl rfl (hcb _ (by simp)) hi
    case markLoading index =>
      exact priorityInv_same p0 k base r _ rfl rfl rfl (hcb _ (by simp)) hi
    case markLoaded index =>
      exact priorityInv_same p0 k base r _ rfl rfl rfl (hcb _ (by simp)) hi
    case stay => exact hi
    case testCurrent hc =>
      obtain ⟨new, h1, h2, h3, h4⟩ := hi
      refine ⟨new, h1, h2, h3, fun hk => ?_⟩
      obtain ⟨_, _, added, hadd⟩ := h4 hk
      rw [hc, List.append_nil] at hadd
      exact absurd (hadd ▸ (by simp)) hk
    case count index =>
      obtain ⟨new, h1, h2, h3, h4⟩ := hi
      refine ⟨new ++ [Obs.completed index], by simp [h1], ?_, ?_, ?_⟩
      · simpa [claims_append, claims] using h2
      · simpa [claimedIndices, claims_append, claims] using h3
      · have hci : claimedIndices (new ++ [Obs.completed index]) = claimedIndices new := by
          simp [claimedIndices, claims_append, claims]
        rw [hci]
        intro hk
        obtain ⟨h5, h6, h7⟩ := h4 hk
        exact ⟨h5, fun hm => h6 (hcb _ (by simp) hm), h7⟩
    case popPriority index rest hp hfit =>
      obtain ⟨new, h1, h2, h3, h4⟩ := hi
      have hcl : claims (new ++ [Obs.claimed index true]) = claims new ++ [(index, true)] := by
        simp [claims_append, claims]
      have hci : claimedIndices (new ++ [Obs.claimed index true]) =
          claimedIndices new ++ [index] := by
        simp [claimedIndices, hcl]
      refine ⟨new ++ [Obs.claimed index true], by simp [h1], ?_, ?_, ?_⟩
      · intro pre c post hsplit hpre
        rw [hcl] at hsplit
        rcases split_snoc _ _ _ _ _ hsplit with ⟨_, hpre2, hc2⟩ | ⟨post1, _, hL⟩
        · subst hpre2 hc2
          have hk : k ∉ claimedIndices new := by
            intro hm
            obtain ⟨d, hd, hdk⟩ := List.mem_map.1 hm
            exact hpre d hd hdk
          obtain ⟨_, _, added, hadd⟩ := h4 hk
          rw [hp] at hadd
          exact ⟨rfl, leading_segment (claimedIndices new) p0 rest added index k hadd hk⟩
        · exact h2 pre c post1 hL hpre
      · intro hclaimed
        rw [hci] at hclaimed
        simp only [List.mem_filter, bne_iff_ne, ne_eq, not_and, not_not]
        intro hmem
        by_contra hne
        rcases List.mem_append.1 hclaimed with h5 | h5
        · exact h3 h5 hmem
        · exact hne (List.mem_singleton.1 h5)
      · intro hk
        rw [hci] at hk
        have hk1 : k ∉ claimedIndices new := fun hm => hk (List.mem_append_left _ hm)
        have hk2 : k ≠ index := fun he => hk (List.mem_append_right _ (by simp [he]))
        obtain ⟨hmem, hnb, added, hadd⟩ := h4 hk1
        rw [hp] at hadd
        refine ⟨by simp [hmem, hk2], fun hm => hnb (hcb _ (by simp) hm), added, ?_⟩
        rw [hci]
        simpa using hadd
    case popCurrent index rest hc =>
      obtain ⟨new, h1, h2, h3, h4⟩ := hi
      have hcl : claims (new ++ [Obs.claimed index false]) = claims new ++ [(index, false)] := by
        simp [claims_append, claims]
      have hci : claimedIndices (new ++ [Obs.claimed index false]) =
          claimedIndices new ++ [index] := by
        simp [claimedIndices, hcl]
      have hkin : k ∈ claimedIndices new := by
        by_contra hk
        exact (h4 hk).2.1 (mem_of_getElem? hw)
      have hnot : k ∉ index :: rest := hc ▸ h3 hkin
      refine ⟨new ++ [Obs.claimed index false], by simp [h1], ?_, ?_, ?_⟩
      · intro pre c post hsplit hpre
        rw [hcl] at hsplit
        rcases split_snoc _ _ _ _ _ hsplit with ⟨_, hpre2, hc2⟩ | ⟨post1, _, hL⟩
        · subst hpre2
          exfalso
          obtain ⟨d, hd, hdk⟩ := List.mem_map.1 hkin
          exact hpre d hd hdk
        · exact h2 pre c post1 hL hpre
      · intro _ hmem
        exact hnot (List.mem_cons_of_mem _ hmem)
      · intro hk
        rw [hci] at hk
        exact absurd (List.mem_append_left _ hkin) hk
  · exact hi
  · obtain ⟨new, h1, h2, h3, h4⟩ := hi
    refine ⟨new, h1, h2, h3, fun hk => ?_⟩
    obtain ⟨hmem, hnb, added, hadd⟩ := h4 hk
    refine ⟨hmem, hnb, added ++ [j], ?_⟩
    simp only [addPriorityIndex]
    rw [← List.append_assoc, hadd]
    simp
  · exact hi

/-- After a call `addPriorityIndex(k)` made while `k` is queued and no worker stands
between the test of `m_PriorityOrder.empty()` and the pop of `m_CurrentOrder`, every schedule
keeps `PriorityInv`. -/
theorem priorityInv_exec (r : Run) (k : Nat) (es : List Event) (r2 : Run)
    (hk : k ∈ r.ctl.m_CurrentOrder) (hb : Pc.currentBranch ∉ r.workers)
    (h : exec { r with ctl := addPriorityIndex r.ctl k } es = some r2) :
    PriorityInv r.ctl.m_PriorityOrder k r.trace r2 :=
  exec_invariant (PriorityInv r.ctl.m_PriorityOrder k r.trace) (fun _ => True)
    (fun a e b ha _ hs => priorityInv_step _ k _ a b e ha hs) es
    { r with ctl := addPriorityIndex r.ctl k } r2
    ⟨[], by simp, by simp [claims], by simp [claimedIndices, claims],
      fun _ => ⟨hk, hb, [], by simp [claimedIndices, claims, addPriorityIndex]⟩⟩
    (fun _ _ => trivial) h

/-- C5 (the code departs from the claim): `addPriorityIndex` pushes to `m_PriorityOrder`
without taking `m_CurrentOrderLock`, which the worker holds around its test of the queue and
its pop.  Three indices, current row `0`, one worker: after four steps the worker holds the
semaphore and has found `m_PriorityOrder` empty.  Then `addPriorityIndex(2)` is called with
`2` still in `m_CurrentOrder`; the next step of the worker pops index `0` through the front
of `m_CurrentOrder`, with `2` still in both queues.  With `addPriorityIndex(0)` instead, the
worker takes `0` itself through the front of `m_CurrentOrder`, `0` stays in
`m_PriorityOrder`, and it is claimed a second time from there. -/
theorem priority_request_overtaken_by_pending_pop :
    (exec (generatePatternImages Controller.fresh StatusTable.fresh ⟨9, 0⟩ 1)
        (List.replicate 4 (Event.worker 0))).map
      (fun r => (r.workers, r.ctl.m_CurrentOrder, r.ctl.m_PriorityOrder, claims r.trace)) =
      some ([Pc.currentBranch], [0, 1, 2], [], []) ∧
    (exec (generatePatternImages Controller.fresh StatusTable.fresh ⟨9, 0⟩ 1)
        (List.replicate 4 (Event.worker 0) ++
          [Event.addPriorityIndex 2, Event.worker 0])).map
      (fun r => (claims r.trace, r.ctl.m_CurrentOrder, r.ctl.m_PriorityOrder)) =
      some ([(0, false)], [1, 2], [2]) ∧
    (exec (generatePatternImages Controller.fresh StatusTable.fresh ⟨9, 0⟩ 1)
        (List.replicate 4 (Event.worker 0) ++
          [Event.addPriorityIndex 0] ++ List.replicate 9 (Event.worker 0))).map
      (fun r => (claims r.trace, r.ctl.m_CurrentOrder, r.ctl.m_PriorityOrder)) =
      some ([(0, false), (0, true)], [1, 2], []) := by
  refine ⟨?_, ?_, ?_⟩ <;> decide

/-! ## Theorems: the first claim of a run -/

theorem exec_trace_extends (es : List Event) (r r1 : Run) (h : exec r es = some r1) :
    ∃ new, r1.trace = r.trace ++ new :=
  exec_invariant (fun x => ∃ new, x.trace = r.trace ++ new) (fun _ => True)
    (fun a e b ha _ hs => by
      obtain ⟨new, hn⟩ := ha
      rcases step_cases a b e hs with ⟨w, pc, _, hw, ht⟩ | ⟨w, _, _, rfl⟩ | ⟨k, _, rfl⟩ | ⟨_, rfl⟩
      · cases ht
        case popPriority index rest hp hfit => exact ⟨new ++ [Obs.claimed index true], by simp [hn]⟩
        case popCurrent index rest hc =>
          exact ⟨new ++ [Obs.claimed index false], by simp [hn]⟩
        case count index => exact ⟨new ++ [Obs.completed index], by simp [hn]⟩
        all_goals exact ⟨new, hn⟩
      · exact ⟨new, hn⟩
      · exact ⟨new, hn⟩
      · exact ⟨new, hn⟩)
    es r r1 ⟨[], by simp⟩ (fun _ _ => trivial) h

theorem branchInv_step (r r1 : Run) (e : Event) (hi : BranchInv r)
    (ha : e.isAddPriority = false) (h : step r e = some r1) : BranchInv r1 := by
  unfold BranchInv at hi ⊢
  rcases step_cases r r1 e h with ⟨w, pc, _, hw, ht⟩ | ⟨w, _, _, rfl⟩ | ⟨k, rfl, rfl⟩ | ⟨_, rfl⟩
  · cases ht <;> try exact hi
    case popPriority index rest hp hfit =>
      rw [hi.1] at hp
      simp at hp
    case popCurrent index rest hc =>
      refine ⟨hi.1, fun c hc2 => ?_⟩
      simp only [claims_append, claims, List.mem_append, List.mem_singleton] at hc2
      rcases hc2 with h1 | h1
      · exact hi.2 c h1
      · rw [h1]
    case count index =>
      refine ⟨hi.1, fun c hc2 => ?_⟩
      simp only [claims_append, claims, List.append_nil] at hc2
      exact hi.2 c hc2
  · exact hi
  · simp [Event.isAddPriority] at ha
  · exact hi

theorem firstInv_step (n : Nat) (r r1 : Run) (e : Event) (hi : FirstInv n r)
    (h : step r e = some r1) : FirstInv n r1 := by
  unfold FirstInv at hi ⊢
  have hframe : ∀ (w : Nat) (q : Pc) (y : Run), y.trace = r.trace → y.model = r.model →
      y.workers = r.workers.set w q → q.holding = [] →
      (claims y.trace = [] →
        (∀ i, i < n → y.model i = PatternStatus.WaitingToLoad) ∧
          ∀ pc ∈ y.workers, pc.holding = []) := by
    intro w q y ht hm hws hq hcl
    rw [ht] at hcl
    rw [hm, hws]
    refine ⟨(hi hcl).1, fun pc hpc => ?_⟩
    rcases mem_of_mem_set hpc with h1 | h1
    · rw [h1]; exact hq
    · exact (hi hcl).2 pc h1
  rcases step_cases r r1 e h with ⟨w, pc, _, hw, ht⟩ | ⟨w, _, _, rfl⟩ | ⟨k, _, rfl⟩ | ⟨_, rfl⟩
  · cases ht
    case exitEmpty hc => exact hframe w _ _ rfl rfl rfl rfl
    case enterLoop hc => exact hframe w _ _ rfl rfl rfl rfl
    case exitCancel hc => exact hframe w _ _ rfl rfl rfl rfl
    case passCheck hc => exact hframe w _ _ rfl rfl rfl rfl
    case acquire hc => exact hframe w _ _ rfl rfl rfl rfl
    case acquireFail hc => exact hframe w _ _ rfl rfl rfl rfl
    case testPriority hc => exact hframe w _ _ rfl rfl rfl rfl
    case testCurrent hc => exact hframe w _ _ rfl rfl rfl rfl
    case stay => exact hi
    case popPriority index rest hp hfit =>
      intro hcl
      simp [claims_append, claims] at hcl
    case popCurrent index rest hc =>
      intro hcl
      simp [claims_append, claims] at hcl
    case markLoading index =>
      intro hcl
      have := (hi hcl).2 _ (mem_of_getElem? hw)
      simp [Pc.holding] at this
    case markLoaded index =>
      intro hcl
      have := (hi hcl).2 _ (mem_of_getElem? hw)
      simp [Pc.holding] at this
    case count index =>
      intro hcl
      simp only [claims_append, claims, List.append_nil] at hcl
      have := (hi hcl).2 _ (mem_of_getElem? hw)
      simp [Pc.holding] at this
  · exact hi
  · exact hi
  · exact hi

/-- Counterexample for C7 as stated.  First run: two indices, current row `0`, one worker,
and `addPriorityIndex(1)` called before the worker reaches the locked section; the first
index claimed is `1`, not `0`.  Second run: no priority call, two workers; worker `0` claims
`0`, worker `1` claims `1` and sets its status to `Loading` while index `0` still has status
`WaitingToLoad`. -/
theorem focus_first_counterexample :
    (exec (generatePatternImages Controller.fresh StatusTable.fresh ⟨6, 0⟩ 1)
        (Event.addPriorityIndex 1 :: soloSchedule 5)).map (fun r => claims r.trace) =
      some [(1, true)] ∧
    (exec (generatePatternImages Controller.fresh StatusTable.fresh ⟨6, 0⟩ 2)
        (List.replicate 5 (Event.worker 0) ++ List.replicate 6 (Event.worker 1))).map
        (fun r => (claims r.trace, r.model 0, r.model 1)) =
      some ([(0, false), (1, false)], PatternStatus.WaitingToLoad, PatternStatus.Loading) := by
  decide

/-- C7 (amended): for every angle count, in-range current row and pool size, and every
schedule of worker steps, `cancelGeneration` calls and `addPriorityIndex` calls: when the
first claim is made before the first `addPriorityIndex` call, the first index claimed in
the run is the current row, taken from the front of `m_CurrentOrder`; and in every schedule
whatever, as long as nothing has been claimed every index below the angle count still has
status `WaitingToLoad`. -/
theorem focus_claimed_first (pre : Controller) (model : StatusTable) (pd : PatternDisplayData)
    (threads : Nat) (es1 es2 : List Event) (r1 r : Run)
    (hrange : 0 ≤ pd.currentRow ∧ pd.currentRow < angleCount pd)
    (hq : ∀ e ∈ es1, e.isAddPriority = false)
    (h1 : exec (generatePatternImages pre model pd threads) es1 = some r1)
    (hne : claims r1.trace ≠ []) (h2 : exec r1 es2 = some r) :
    (claims r.trace).head? = some (pd.currentRow.toNat, false) ∧
    (∀ (es : List Event) (x : Run),
      exec (generatePatternImages pre model pd threads) es = some x → claims x.trace = [] →
      ∀ i, i < angleCount pd → x.model i = PatternStatus.WaitingToLoad) := by
  constructor
  · have hquiet : QuietInv (specOrder (angleCount pd) pd.currentRow) r1 :=
      exec_invariant (QuietInv (specOrder (angleCount pd) pd.currentRow))
        (fun e => e.isAddPriority = false)
        (fun a e b ha hal hs => quietInv_step _ a b e ha hal hs) es1 _ r1
        (start_quietInv pre model pd threads) hq h1
    have hbranch : BranchInv r1 :=
      exec_invariant BranchInv (fun e => e.isAddPriority = false)
        (fun a e b ha hal hs => branchInv_step a b e ha hal hs) es1 _ r1
        ⟨rfl, by simp [generatePatternImages, claims]⟩ hq h1
    obtain ⟨new, hnew⟩ := exec_trace_extends es2 r1 r h2
    rw [hnew, claims_append]
    cases hcl : claims r1.trace with
    | nil => exact absurd hcl hne
    | cons c cs =>
      have hc2 : c.2 = false := hbranch.2 c (by rw [hcl]; exact List.mem_cons_self _ _)
      have hc1 : c.1 = pd.currentRow.toNat := by
        have := hquiet.2
        simp only [claimedIndices, hcl, specOrder, hrange, and_self, if_true, List.map_cons,
          List.cons_append, List.cons.injEq] at this
        exact this.1
      simp only [List.cons_append, List.head?_cons, Option.some.injEq]
      exact Prod.ext hc1 hc2
  · intro es x hx hcl i hlt
    have hfirst : FirstInv (angleCount pd) x :=
      exec_invariant (FirstInv (angleCount pd)) (fun _ => True)
        (fun a e b ha _ hs => firstInv_step _ a b e ha hs) es _ x
        (fun _ => ⟨fun j hj => by simp [generatePatternImages, orderLoop_snd, hj],
          fun pc hpc => by
            simp only [generatePatternImages] at hpc
            rw [List.eq_of_mem_replicate hpc]
            rfl⟩)
        (fun _ _ => trivial) hx
    exact (hfirst hcl).1 i hlt

/-- Witness for C7 (amended): three indices, current row `1`, two workers; worker `1` makes
the first claim, then `addPriorityIndex(2)` is called and worker `0` claims `2`. -/
theorem focus_claimed_first_witness :
    ∃ r1 r, exec (generatePatternImages Controller.fresh StatusTable.fresh ⟨9, 1⟩ 2)
        (List.replicate 5 (Event.worker 1)) = some r1 ∧ claims r1.trace ≠ [] ∧
      exec r1 (Event.addPriorityIndex 2 :: List.replicate 5 (Event.worker 0)) = some r ∧
      ((claims r.trace).head? = some (1, false) ∧
        (∀ (es : List Event) (x : Run),
          exec (generatePatternImages Controller.fresh StatusTable.fresh ⟨9, 1⟩ 2) es = some x →
          claims x.trace = [] →
          ∀ i, i < angleCount ⟨9, 1⟩ → x.model i = PatternStatus.WaitingToLoad)) := by
  obtain ⟨r1, h1⟩ := Option.isSome_iff_exists.1
    (show (exec (generatePatternImages Controller.fresh StatusTable.fresh ⟨9, 1⟩ 2)
      (List.replicate 5 (Event.worker 1))).isSome = true by decide)
  have hcl : (exec (generatePatternImages Controller.fresh StatusTable.fresh ⟨9, 1⟩ 2)
      (List.replicate 5 (Event.worker 1))).map (fun x => claims x.trace) = some [(1, false)] := by
    decide
  have hsome : ((exec (generatePatternImages Controller.fresh StatusTable.fresh ⟨9, 1⟩ 2)
      (List.replicate 5 (Event.worker 1))).bind (fun x =>
        exec x (Event.addPriorityIndex 2 :: List.replicate 5 (Event.worker 0)))).isSome = true := by
    decide
  rw [h1] at hcl hsome
  simp only [Option.map_some', Option.some.injEq, Option.some_bind] at hcl hsome
  obtain ⟨r, h2⟩ := Option.isSome_iff_exists.1 hsome
  have hne : claims r1.trace ≠ [] := by rw [hcl]; simp
  exact ⟨r1, r, h1, hne, h2,
    focus_claimed_first Controller.fresh StatusTable.fresh ⟨9, 1⟩ 2 _ _ r1 r (by decide)
      (by decide) h1 hne h2⟩

/-! ## Theorems: the cancel flag -/

/-- C8 (the code departs from the claim): `generatePatternImages` never writes `m_Cancel`,
so the flag keeps the value it had before the call.  After `cancelGeneration` on an idle
controller, a run of three indices with two workers starts with the flag set: both workers
return at their first flag check, nothing is claimed, the finished count stays `0` and every
status stays `WaitingToLoad`. -/
theorem stale_cancel_survives_start :
    (∀ (pre : Controller) (model : StatusTable) (pd : PatternDisplayData) (threads : Nat),
      (generatePatternImages pre model pd threads).ctl.m_Cancel = pre.m_Cancel) ∧
    (generatePatternImages (cancelGeneration Controller.fresh) StatusTable.fresh ⟨9, 0⟩
      2).ctl.m_Cancel = true ∧
    (exec (generatePatternImages (cancelGeneration Controller.fresh) StatusTable.fresh ⟨9, 0⟩ 2)
        [Event.worker 0, Event.worker 0, Event.worker 1, Event.worker 1]).map
      (fun r => (r.workers, r.trace, r.ctl.m_NumOfFinishedPatterns,
        r.model 0, r.model 1, r.model 2)) =
    some ([Pc.returned, Pc.returned], [], 0, PatternStatus.WaitingToLoad,
      PatternStatus.WaitingToLoad, PatternStatus.WaitingToLoad) := by
  refine ⟨fun _ _ _ _ => rfl, ?_, ?_⟩ <;> decide

theorem cancelInv_step (bound : Nat) (r r1 : Run) (e : Event) (hi : CancelInv bound r)
    (h : step r e = some r1) : CancelInv bound r1 := by
  unfold CancelInv at hi ⊢
  obtain ⟨hcl, hb⟩ := hi
  rcases step_cases r r1 e h with ⟨w, pc, _, hw, ht⟩ | ⟨w, _, _, rfl⟩ | ⟨k, _, rfl⟩ | ⟨_, rfl⟩
  · have k2 := (sum_map_set Pc.pastCheck r.workers w pc pc hw).2
    cases ht
    case stay => exact ⟨hcl, hb⟩
    case passCheck hc => rw [hcl] at hc; simp at hc
    all_goals
      refine ⟨hcl, ?_⟩
      try simp only [claims_append, claims, List.length_append, List.length_cons,
        List.length_nil, List.append_nil]
      rw [(sum_map_set Pc.pastCheck r.workers w _ _ hw).1]
      simp only [Pc.pastCheck] at k2 ⊢
      omega
  · exact ⟨hcl, hb⟩
  · exact ⟨hcl, hb⟩
  · exact ⟨rfl, hb⟩

/-- Counterexample for C9 as stated: two indices, current row `0`, one worker.  The worker
passes the flag check, then `cancelGeneration` sets the flag; the order is still `[0, 1]`
and nothing has been claimed.  The next three steps of the worker acquire the semaphore,
test the priority queue and pop index `0`: the order is popped after the flag was set. -/
theorem cancel_pop_counterexample :
    (exec (generatePatternImages Controller.fresh StatusTable.fresh ⟨6, 0⟩ 1)
        [Event.worker 0, Event.worker 0, Event.cancelGeneration]).map
      (fun r => (r.ctl.m_Cancel, r.ctl.m_CurrentOrder, claims r.trace)) =
      some (true, [0, 1], []) ∧
    (exec (generatePatternImages Controller.fresh StatusTable.fresh ⟨6, 0⟩ 1)
        [Event.worker 0, Event.worker 0, Event.cancelGeneration, Event.worker 0,
          Event.worker 0, Event.worker 0]).map
      (fun r => (r.ctl.m_Cancel, r.ctl.m_CurrentOrder, claims r.trace)) =
      some (true, [1], [(0, false)]) := by
  decide

/-- C9 (amended): in a run without `addPriorityIndex` calls, from any point at which the
cancel flag is set: the flag stays set; a worker at the loop head goes to the flag check or
returns, and a worker at the flag check returns, so an iteration that begins afterwards pops
nothing; the only pops still possible are by workers that had already passed the flag check,
at most one each (the number of claims plus the number of such workers never grows); the
finished count never exceeds the angle count; and every index below the angle count that
has not been claimed keeps status `WaitingToLoad`. -/
theorem cancel_stops_new_iterations (pre : Controller) (model : StatusTable)
    (pd : PatternDisplayData) (threads : Nat) (es1 es2 : List Event) (r1 r2 : Run)
    (hq1 : ∀ e ∈ es1, e.isAddPriority = false) (hq2 : ∀ e ∈ es2, e.isAddPriority = false)
    (h1 : exec (generatePatternImages pre model pd threads) es1 = some r1)
    (hcancel : r1.ctl.m_Cancel = true) (h2 : exec r1 es2 = some r2) :
    r2.ctl.m_Cancel = true ∧
    (∀ (x : Run) (w : Nat), x.workers[w]? = some Pc.loopHead →
      step x (Event.worker w) =
        some (x.setPc w (if x.ctl.m_CurrentOrder.isEmpty then Pc.returned else Pc.cancelCheck))) ∧
    (∀ (x : Run) (w : Nat), x.ctl.m_Cancel = true → x.workers[w]? = some Pc.cancelCheck →
      step x (Event.worker w) = some (x.setPc w Pc.returned)) ∧
    (claims r2.trace).length + (r2.workers.map Pc.pastCheck).sum ≤
      (claims r1.trace).length + (r1.workers.map Pc.pastCheck).sum ∧
    r2.ctl.m_NumOfFinishedPatterns ≤ angleCount pd ∧
    (∀ i, i < angleCount pd → i ∉ claimedIndices r2.trace →
      i ∈ r2.ctl.m_CurrentOrder ∧ r2.model i = PatternStatus.WaitingToLoad) := by
  have hcinv : CancelInv ((claims r1.trace).length + (r1.workers.map Pc.pastCheck).sum) r2 :=
    exec_invariant (CancelInv _) (fun _ => True)
      (fun a e b ha _ hs => cancelInv_step _ a b e ha hs) es2 r1 r2
      ⟨hcancel, le_refl _⟩ (fun _ _ => trivial) h2
  have hall : exec (generatePatternImages pre model pd threads) (es1 ++ es2) = some r2 := by
    rw [exec_append, h1]
    exact h2
  have hq : ∀ e ∈ es1 ++ es2, e.isAddPriority = false := by
    intro e he
    rcases List.mem_append.1 he with h | h
    · exact hq1 e h
    · exact hq2 e h
  have hquiet : QuietInv (specOrder (angleCount pd) pd.currentRow) r2 :=
    exec_invariant (QuietInv (specOrder (angleCount pd) pd.currentRow))
      (fun e => e.isAddPriority = false)
      (fun a e b ha hal hs => quietInv_step _ a b e ha hal hs) (es1 ++ es2) _ r2
      (start_quietInv pre model pd threads) hq hall
  have hcount : CountInv r2 :=
    exec_invariant CountInv (fun _ => True) (fun a e b ha _ hs => countInv_step a b e ha hs)
      (es1 ++ es2) _ r2 (start_countInv pre model pd threads) (fun _ _ => trivial) hall
  have hwait : WaitingInv r2 :=
    exec_invariant WaitingInv (fun _ => True) (fun a e b ha _ hs => waitingInv_step a b e ha hs)
      (es1 ++ es2) _ r2 (start_waitingInv pre model pd threads) (fun _ _ => trivial) hall
  refine ⟨hcinv.1, ?_, ?_, hcinv.2, ?_, ?_⟩
  · intro x w hw
    simp only [step, workerStep, hw, generatePatternImagesUsingThread]
    split <;> rfl
  · intro x w hx hw
    simp [step, workerStep, hw, generatePatternImagesUsingThread, hx]
  · have hlen := congrArg List.length hquiet.2
    rw [List.length_append, (specOrder_perm _ _).length_eq, List.length_range] at hlen
    have h3 : (claims r2.trace).length = (claimedIndices r2.trace).length := by
      simp [claimedIndices]
    have h4 := hcount.1
    omega
  · intro i hlt hni
    have hmem : i ∈ claimedIndices r2.trace ++ r2.ctl.m_CurrentOrder := by
      rw [hquiet.2, mem_specOrder]
      exact hlt
    rcases List.mem_append.1 hmem with h | h
    · exact absurd h hni
    · exact ⟨h, (hwait.2 i h).1⟩

/-- Witness for C9 (amended): three indices, current row `0`, two workers; worker `0` has
claimed index `0` and worker `1` is at the loop head when `cancelGeneration` is called;
afterwards both workers run. -/
theorem cancel_stops_new_iterations_witness :
    ∃ r1 r2, exec (generatePatternImages Controller.fresh StatusTable.fresh ⟨9, 0⟩ 2)
        (List.replicate 6 (Event.worker 0) ++ [Event.cancelGeneration]) = some r1 ∧
      r1.ctl.m_Cancel = true ∧
      exec r1 (List.replicate 4 (Event.worker 0) ++ List.replicate 2 (Event.worker 1)) =
        some r2 ∧
      claimedIndices r2.trace = [0] ∧ r2.workers = [Pc.returned, Pc.returned] ∧
      r2.ctl.m_NumOfFinishedPatterns ≤ angleCount ⟨9, 0⟩ ∧
      (∀ i, i < angleCount ⟨9, 0⟩ → i ∉ claimedIndices r2.trace →
        i ∈ r2.ctl.m_CurrentOrder ∧ r2.model i = PatternStatus.WaitingToLoad) := by
  obtain ⟨r1, h1⟩ := Option.isSome_iff_exists.1
    (show (exec (generatePatternImages Controller.fresh StatusTable.fresh ⟨9, 0⟩ 2)
      (List.replicate 6 (Event.worker 0) ++ [Event.cancelGeneration])).isSome = true by decide)
  have hflag : (exec (generatePatternImages Controller.fresh StatusTable.fresh ⟨9, 0⟩ 2)
      (List.replicate 6 (Event.worker 0) ++ [Event.cancelGeneration])).map
        (fun x => x.ctl.m_Cancel) = some true := by
    decide
  have hend : ((exec (generatePatternImages Controller.fresh StatusTable.fresh ⟨9, 0⟩ 2)
      (List.replicate 6 (Event.worker 0) ++ [Event.cancelGeneration])).bind (fun x =>
        exec x (List.replicate 4 (Event.worker 0) ++ List.replicate 2 (Event.worker 1)))).map
        (fun y => (claimedIndices y.trace, y.workers)) =
      some ([0], [Pc.returned, Pc.returned]) := by
    decide
  rw [h1] at hflag hend
  simp only [Option.map_some', Option.some.injEq, Option.some_bind] at hflag hend
  obtain ⟨r2, h2, hr2⟩ := Option.map_eq_some'.1 hend
  simp only [Prod.mk.injEq] at hr2
  have hmain := cancel_stops_new_iterations Controller.fresh StatusTable.fresh ⟨9, 0⟩ 2 _ _ r1 r2
    (by decide) (by decide) h1 hflag h2
  exact ⟨r1, r2, h1, hflag, h2, hr2.1, hr2.2, hmain.2.2.2.2.1, hmain.2.2.2.2.2⟩

/-! ## Theorems: the display cache -/

theorem elementAt_neg_one {α : Type} (xs : List α) : elementAt xs (-1) = none := by
  simp [elementAt]

theorem exceedsSize_zero (unsignedSize : Bool) (size : Nat) :
    exceedsSize unsignedSize 0 size = false := by
  cases unsignedSize <;> simp [exceedsSize]

/-- C4 (the code departs from the claim): the guard of `updateMPImage` and `updateMCImage`
only tests `energyBin > size()`.  For `energyBin = 0`, which lies outside `[1, count]`, the
guard is false for every cache, every projection mode and either type of `size()`, and the
`else` branch reads slot `-1` of the generator array: an access out of bounds instead of the
blank result.  With a Qt container (`int` size) the same happens for `energyBin = -1`. -/
theorem energyBin_zero_reads_out_of_bounds :
    (∀ (unsignedSize : Bool) (c : DisplayCache Nat Int) (mode : ProjectionMode),
      updateMPImage unsignedSize c ⟨mode, 0⟩ = none ∧
      updateMCImage unsignedSize c ⟨mode, 0⟩ = none) ∧
    (∀ (unsignedSize : Bool), exceedsSize unsignedSize 0 3 = false) ∧
    updateMPImage true sampleCache ⟨ProjectionMode.Lambert_Square, 0⟩ ≠ some blankImageData ∧
    updateMPImage false sampleCache ⟨ProjectionMode.Lambert_Square, -1⟩ = none ∧
    updateMCImage false sampleCache ⟨ProjectionMode.Stereographic, -1⟩ = none := by
  refine ⟨fun u c mode => ?_, fun u => exceedsSize_zero u 3, by decide, by decide, by decide⟩
  cases mode <;>
    simp [updateMPImage, updateMCImage, exceedsSize_zero, readSlot, elementAt_neg_one]

/-! ## Theorems: `validateDetectorValues` -/

/-- C10 (the code departs from the claim): the check compares `completeSuffix()`, the part
of the file name after its first dot.  For the existing file `scan.v2.h5`, whose extension
is `h5`, the complete suffix is `v2.h5`, and the function returns `false` with the message
that the path is not an HDF5 file. -/
theorem multi_dot_h5_rejected :
    lastSuffix "scan.v2.h5" = "h5" ∧ completeSuffix "scan.v2.h5" = "v2.h5" ∧
    validateDetectorValues (fun _ => true) "scan.v2.h5" =
      (false, ["The master file path 'scan.v2.h5' is not an HDF5 file."]) ∧
    validateDetectorValues (fun _ => true) "scan.h5" = (true, []) ∧
    (∀ (fileExists : String → Bool) (path : String),
      ((validateDetectorValues fileExists path).1 = true ↔
        (path.isEmpty = false ∧ fileExists path = true ∧
          (completeSuffix path = "h5" ∨ completeSuffix path = "dream3d"))) ∧
      ((validateDetectorValues fileExists path).1 = true →
        (validateDetectorValues fileExists path).2 = []) ∧
      ((validateDetectorValues fileExists path).1 = false →
        (validateDetectorValues fileExists path).2.length = 1)) := by
  refine ⟨by decide, by decide, by decide, by decide, fun fileExists path => ?_⟩
  unfold validateDetectorValues
  by_cases h1 : path.isEmpty = true
  · simp [h1]
  · by_cases h2 : fileExists path = true
    · by_cases h3 : completeSuffix path = "h5"
      · simp [h1, h2, h3]
      · by_cases h4 : completeSuffix path = "dream3d"
        · simp [h1, h2, h4]
        · simp [h1, h2, h3, h4]
    · simp [h1, h2]

/-! ## Theorems: in-range queries of the display cache -/

theorem exceedsSize_of_le (unsignedSize : Bool) (energyBin : Int) (size : Nat)
    (h1 : 1 ≤ energyBin) (h2 : energyBin ≤ size) :
    exceedsSize unsignedSize energyBin size = false := by
  have hmod : energyBin % 2 ^ 64 ≤ energyBin := by omega
  cases unsignedSize
  · simp only [exceedsSize, Bool.false_eq_true, if_false, decide_eq_false_iff_not]
    omega
  · simp only [exceedsSize, if_true, decide_eq_false_iff_not]
    omega

theorem elementAt_of_le {α : Type} (xs : List α) (i : Int) (h1 : 1 ≤ i) (h2 : i ≤ xs.length) :
    ∃ x, xs[(i - 1).toNat]? = some x ∧ elementAt xs (i - 1) = some x := by
  have hlt : (i - 1).toNat < xs.length := by omega
  refine ⟨xs[(i - 1).toNat], List.getElem?_eq_getElem hlt, ?_⟩
  have hnn : 0 ≤ i - 1 := by omega
  simp only [elementAt, hnn, if_true]
  exact List.getElem?_eq_getElem hlt

theorem readSlot_of_le {Img V : Type} (generators : List (ImageGen Img V)) (ekevs : List V)
    (energyBin : Int) (h1 : 1 ≤ energyBin) (h2 : energyBin ≤ generators.length)
    (h3 : energyBin ≤ ekevs.length) :
    ∃ imageGen keV, generators[(energyBin - 1).toNat]? = some imageGen ∧
      ekevs[(energyBin - 1).toNat]? = some keV ∧
      readSlot generators ekevs energyBin = some (slotResult imageGen keV) := by
  obtain ⟨g, hg, hge⟩ := elementAt_of_le generators energyBin h1 h2
  obtain ⟨k, hk, hke⟩ := elementAt_of_le ekevs energyBin h1 h3
  exact ⟨g, k, hg, hk, by simp [readSlot, hge, hke, slotResult]⟩

/-- C11: for every projection mode and every energy bin with `1 ≤ energyBin`, at most the
number of energy levels and at most the size of the selected generator array, whichever
the type of `size()`: `updateMPImage` emits the image and the value range stored in slot
`energyBin - 1` of the master array of that mode (LPNH, circle, stereo) with the energy
`ekevs[energyBin - 1]`, and `updateMCImage` does the same with the Monte Carlo array of that
mode (square, circle, stereo). -/
theorem query_in_range_returns_slot {Img V : Type} [Zero V] (unsignedSize : Bool)
    (c : DisplayCache Img V) (mode : ProjectionMode) (energyBin : Int)
    (h1 : 1 ≤ energyBin) (hk : energyBin ≤ c.ekevs.length) :
    (energyBin ≤ (masterFamily c mode).length →
      ∃ imageGen keV, (masterFamily c mode)[(energyBin - 1).toNat]? = some imageGen ∧
        c.ekevs[(energyBin - 1).toNat]? = some keV ∧
        updateMPImage unsignedSize c ⟨mode, energyBin⟩ =
          some { image := some imageGen.generatedImage
                 minValue := imageGen.minMaxPair.1
                 maxValue := imageGen.minMaxPair.2
                 keVValue := keV }) ∧
    (energyBin ≤ (monteCarloFamily c mode).length →
      ∃ imageGen keV, (monteCarloFamily c mode)[(energyBin - 1).toNat]? = some imageGen ∧
        c.ekevs[(energyBin - 1).toNat]? = some keV ∧
        updateMCImage unsignedSize c ⟨mode, energyBin⟩ =
          some { image := some imageGen.generatedImage
                 minValue := imageGen.minMaxPair.1
                 maxValue := imageGen.minMaxPair.2
                 keVValue := keV }) := by
  constructor
  · intro h2
    obtain ⟨g, k, hg, hke, hr⟩ := readSlot_of_le (masterFamily c mode) c.ekevs energyBin h1 h2 hk
    refine ⟨g, k, hg, hke, ?_⟩
    cases mode <;>
      simp only [masterFamily] at h2 hr <;>
      simp [updateMPImage, exceedsSize_of_le unsignedSize energyBin _ h1 h2, hr, slotResult]
  · intro h2
    obtain ⟨g, k, hg, hke, hr⟩ :=
      readSlot_of_le (monteCarloFamily c mode) c.ekevs energyBin h1 h2 hk
    refine ⟨g, k, hg, hke, ?_⟩
    cases mode <;>
      simp only [monteCarloFamily] at h2 hr <;>
      simp [updateMCImage, exceedsSize_of_le unsignedSize energyBin _ h1 h2, hr, slotResult]

/-- Witness for C11: the sample cache (three generators per family, three energy levels),
Lambert circle, energy bin `2`; both queries return slot `1`. -/
theorem query_in_range_returns_slot_witness :
    (1 : Int) ≤ 2 ∧ (2 : Int) ≤ sampleCache.ekevs.length ∧
    (2 : Int) ≤ (masterFamily sampleCache ProjectionMode.Lambert_Circle).length ∧
    (2 : Int) ≤ (monteCarloFamily sampleCache ProjectionMode.Lambert_Circle).length ∧
    updateMPImage true sampleCache ⟨ProjectionMode.Lambert_Circle, 2⟩ =
      some { image := some 11, minValue := 3, maxValue := 4, keVValue := 10 } ∧
    updateMCImage false sampleCache ⟨ProjectionMode.Lambert_Circle, 2⟩ =
      some { image := some 11, minValue := 3, maxValue := 4, keVValue := 10 } ∧
    ((2 : Int) ≤ (masterFamily sampleCache ProjectionMode.Lambert_Circle).length →
      ∃ imageGen keV,
        (masterFamily sampleCache ProjectionMode.Lambert_Circle)[((2 : Int) - 1).toNat]? =
          some imageGen ∧
        sampleCache.ekevs[((2 : Int) - 1).toNat]? = some keV ∧
        updateMPImage true sampleCache ⟨ProjectionMode.Lambert_Circle, 2⟩ =
          some { image := some imageGen.generatedImage
                 minValue := imageGen.minMaxPair.1
                 maxValue := imageGen.minMaxPair.2
                 keVValue := keV }) :=
  ⟨by decide, by decide, by decide, by decide, by decide, by decide,
    (query_in_range_returns_slot true sampleCache ProjectionMode.Lambert_Circle 2
      (by decide) (by decide)).1⟩

/-! ## Theorems: a priority request issued right after start -/

/-- Counterexample for C12 as stated: five indices, current row `0`, two workers,
`addPriorityIndex(4)` right after start.  Worker `0` claims index `4`; before it goes on,
worker `1` claims and finishes indices `0`, `1`, `2` and `3`; then worker `0` finishes
index `4`, which is the fifth completion. -/
theorem priority_completion_counterexample :
    (exec (generatePatternImages Controller.fresh StatusTable.fresh ⟨15, 0⟩ 2)
        (Event.addPriorityIndex 4 :: (List.replicate 5 (Event.worker 0) ++
          List.replicate 32 (Event.worker 1) ++ List.replicate 3 (Event.worker 0)))).map
      (fun r => (claimedIndices r.trace, completedIndices r.trace)) =
    some ([4, 0, 1, 2, 3], [0, 1, 2, 3, 4]) := by
  decide

/-- C12 (amended): for every angle count, current row and pool size, when
`addPriorityIndex(k)` with `k` below the angle count is called right after
`generatePatternImages`, before any worker step, then in every schedule of worker steps and
further UI calls the first index claimed in the run is `k`, taken through the priority
branch, and once it has been claimed `k` is no longer in `m_CurrentOrder`.  The test of
`m_PriorityOrder.empty()` and the pop are separate steps here.  A schedule that reaches
undefined behaviour is covered up to that point, every prefix of a schedule being a
schedule.  Nothing is said about the position of the completion of `k` among the
completions of the other workers. -/
theorem priority_after_start_claimed_first (pre : Controller) (model : StatusTable)
    (pd : PatternDisplayData) (threads k : Nat) (es : List Event) (r : Run)
    (hk : k < angleCount pd)
    (h : exec { generatePatternImages pre model pd threads with
          ctl := addPriorityIndex (generatePatternImages pre model pd threads).ctl k } es =
        some r) :
    (∀ c rest, claims r.trace = c :: rest → c = (k, true)) ∧
    (k ∈ claimedIndices r.trace → k ∉ r.ctl.m_CurrentOrder) := by
  have hmem : k ∈ (generatePatternImages pre model pd threads).ctl.m_CurrentOrder := by
    rw [start_order, mem_specOrder]
    exact hk
  have hnb : Pc.currentBranch ∉ (generatePatternImages pre model pd threads).workers := by
    intro hm
    have := List.eq_of_mem_replicate hm
    simp at this
  obtain ⟨new, h1, h2, h3, _⟩ := priorityInv_exec _ k es r hmem hnb h
  have htr : r.trace = new := by
    rw [h1]
    simp [generatePatternImages]
  rw [htr]
  refine ⟨fun c rest hc => ?_, h3⟩
  obtain ⟨hb, rest2, hr⟩ := h2 [] c rest (by simpa using hc) (by simp)
  simp only [generatePatternImages, List.map_nil, List.nil_append, List.cons.injEq] at hr
  exact Prod.ext hr.1 hb

/-- Witness for C12 (amended), the scenario of the specification: five indices, two
workers, `addPriorityIndex(4)` right after start; in the run of the counterexample the
first claim is index `4` from the priority queue. -/
theorem priority_after_start_claimed_first_witness :
    ∃ r, exec { generatePatternImages Controller.fresh StatusTable.fresh ⟨15, 0⟩ 2 with
          ctl := addPriorityIndex
            (generatePatternImages Controller.fresh StatusTable.fresh ⟨15, 0⟩ 2).ctl 4 }
        (List.replicate 5 (Event.worker 0) ++ List.replicate 32 (Event.worker 1) ++
          List.replicate 3 (Event.worker 0)) = some r ∧
      4 < angleCount ⟨15, 0⟩ ∧ claims r.trace ≠ [] ∧
      ((∀ c rest, claims r.trace = c :: rest → c = (4, true)) ∧
        (4 ∈ claimedIndices r.trace → 4 ∉ r.ctl.m_CurrentOrder)) := by
  have hsome : (exec { generatePatternImages Controller.fresh StatusTable.fresh ⟨15, 0⟩ 2 with
          ctl := addPriorityIndex
            (generatePatternImages Controller.fresh StatusTable.fresh ⟨15, 0⟩ 2).ctl 4 }
        (List.replicate 5 (Event.worker 0) ++ List.replicate 32 (Event.worker 1) ++
          List.replicate 3 (Event.worker 0))).map (fun x => claims x.trace) =
      some [(4, true), (0, false), (1, false), (2, false), (3, false)] := by
    decide
  obtain ⟨r, hr, hcl⟩ := Option.map_eq_some'.1 hsome
  exact ⟨r, hr, by decide, by rw [hcl]; simp,
    priority_after_start_claimed_first Controller.fresh StatusTable.fresh ⟨15, 0⟩ 2 4 _ r
      (by decide) hr⟩

/-! ## Theorems: `patternThreadFinished` -/

theorem patternThreadFinished_spec (c : Controller) (threads : Nat) :
    (patternThreadFinished c threads).1.m_NumOfFinishedPatternThreads =
      c.m_NumOfFinishedPatternThreads + 1 ∧
    ((patternThreadFinished c threads).2 = true ↔
      c.m_NumOfFinishedPatternThreads + 1 = threads) ∧
    (c.m_NumOfFinishedPatternThreads + 1 = threads →
      (patternThreadFinished c threads).1.m_Cancel = false) ∧
    (c.m_NumOfFinishedPatternThreads + 1 ≠ threads →
      (patternThreadFinished c threads).1.m_Cancel = c.m_Cancel) := by
  unfold patternThreadFinished
  by_cases h : c.m_NumOfFinishedPatternThreads + 1 = threads
  · simp [h]
  · simp [h]

theorem patternThreadFinishedCalls_spec (c : Controller) (threads : Nat)
    (h0 : c.m_NumOfFinishedPatternThreads = 0) (hT : 0 < threads) (k : Nat) :
    (patternThreadFinishedCalls c threads k).1.m_NumOfFinishedPatternThreads = k ∧
    (patternThreadFinishedCalls c threads k).2 =
      (List.range k).map (fun j => decide (j + 1 = threads)) ∧
    (k < threads → (patternThreadFinishedCalls c threads k).1.m_Cancel = c.m_Cancel) ∧
    (threads ≤ k → (patternThreadFinishedCalls c threads k).1.m_Cancel = false) := by
  induction k with
  | zero =>
    refine ⟨h0, rfl, fun _ => rfl, fun h => ?_⟩
    omega
  | succ k ih =>
    obtain ⟨ih1, ih2, ih3, ih4⟩ := ih
    obtain ⟨s1, s2, s3, s4⟩ :=
      patternThreadFinished_spec (patternThreadFinishedCalls c threads k).1 threads
    rw [ih1] at s1 s2 s3 s4
    simp only [patternThreadFinishedCalls]
    refine ⟨s1, ?_, fun hlt => ?_, fun hle => ?_⟩
    · rw [ih2, List.range_succ, List.map_append]
      simp only [List.map_cons, List.map_nil, List.append_cancel_left_eq, List.cons.injEq,
        and_true]
      by_cases hk : k + 1 = threads
      · simp [hk, s2.2 hk]
      · have hf : (patternThreadFinished (patternThreadFinishedCalls c threads k).1
            threads).2 = false := by
          cases hb : (patternThreadFinished (patternThreadFinishedCalls c threads k).1
            threads).2
          · rfl
          · exact absurd (s2.1 hb) hk
        simp [hk, hf]
    · rw [s4 (by omega)]
      exact ih3 (by omega)
    · by_cases hk : k + 1 = threads
      · exact s3 hk
      · rw [s4 hk]
        exact ih4 (by omega)

theorem step_threadCounter (r r1 : Run) (e : Event) (h : step r e = some r1) :
    r1.ctl.m_NumOfFinishedPatternThreads = r.ctl.m_NumOfFinishedPatternThreads := by
  rcases step_cases r r1 e h with ⟨w, pc, _, hw, ht⟩ | ⟨w, _, _, rfl⟩ | ⟨k, _, rfl⟩ | ⟨_, rfl⟩
  · cases ht <;> rfl
  · rfl
  · rfl
  · rfl

theorem step_returned_stable (r r1 : Run) (e : Event) (v : Nat) (h : step r e = some r1)
    (hv : r.workers[v]? = some Pc.returned) : r1.workers[v]? = some Pc.returned := by
  rcases step_cases r r1 e h with ⟨w, pc, _, hw, ht⟩ | ⟨w, _, _, rfl⟩ | ⟨k, _, rfl⟩ | ⟨_, rfl⟩
  · by_cases hvw : w = v
    · subst hvw
      rw [hw] at hv
      simp only [Option.some.injEq] at hv
      subst hv
      cases ht
      exact hw
    · cases ht <;> first
        | exact hv
        | (simp only [List.getElem?_set_ne hvw]
           exact hv)
  · exact hv
  · exact hv
  · exact hv

theorem nodup_length_le (l : List Nat) (n : Nat) (hnd : l.Nodup) (hlt : ∀ v ∈ l, v < n) :
    l.length ≤ n := by
  have hsub : l ⊆ List.range n := fun v hv => List.mem_range.2 (hlt v hv)
  have := (List.subperm_of_subset hnd hsub).length_le
  simpa using this

theorem nodup_full (l : List Nat) (n : Nat) (hnd : l.Nodup) (hlt : ∀ v ∈ l, v < n)
    (hlen : n ≤ l.length) : ∀ v, v < n → v ∈ l := by
  intro v hv
  have hsub : l ⊆ List.range n := fun u hu => List.mem_range.2 (hlt u hu)
  have hperm := (List.subperm_of_subset hnd hsub).perm_of_length_le (by simpa using hlen)
  exact hperm.mem_iff.2 (List.mem_range.2 hv)

theorem sessionInv_step (threads : Nat) (s s1 : Session) (e : SessionEvent)
    (hi : SessionInv threads s) (h : sessionStep s e = some s1) : SessionInv threads s1 := by
  obtain ⟨hlen, hnd, hret, hcnt, hfin⟩ := hi
  cases e with
  | run ev =>
    simp only [sessionStep, Option.map_eq_some'] at h
    obtain ⟨r, hr, rfl⟩ := h
    exact ⟨(step_workers_length s.run r ev hr).trans hlen, hnd,
      fun v hv => step_returned_stable s.run r ev v hr (hret v hv),
      (step_threadCounter s.run r ev hr).trans hcnt, hfin⟩
  | watcherFinished w =>
    simp only [sessionStep] at h
    split at h
    · rename_i hen
      simp only [Option.some.injEq] at h
      subst h
      subst hlen
      obtain ⟨t1, t2, _, _⟩ := patternThreadFinished_spec s.run.ctl s.run.workers.length
      have hnd2 : (w :: s.delivered).Nodup := List.nodup_cons.2 ⟨hen.2, hnd⟩
      have hret2 : ∀ v ∈ w :: s.delivered, s.run.workers[v]? = some Pc.returned := by
        intro v hv
        rcases List.mem_cons.1 hv with h1 | h1
        · rw [h1]; exact hen.1
        · exact hret v h1
      have hbound : (w :: s.delivered).length ≤ s.run.workers.length :=
        nodup_length_le _ _ hnd2 (fun v hv => lt_length_of_getElem? (hret2 v hv))
      simp only [List.length_cons] at hbound
      rw [hcnt] at t1 t2
      refine ⟨rfl, hnd2, hret2, t1, ?_⟩
      have hold : s.finishedEvents = 0 := by
        rw [hfin, if_neg (by omega)]
      simp only [List.length_cons, hold, Nat.zero_add]
      by_cases hk : s.delivered.length + 1 = s.run.workers.length
      · rw [if_pos (t2.2 hk), if_pos (by omega)]
      · have hf : (patternThreadFinished s.run.ctl s.run.workers.length).2 = false := by
          cases hb : (patternThreadFinished s.run.ctl s.run.workers.length).2
          · rfl
          · exact absurd (t2.1 hb) hk
        simp only [hf, Bool.false_eq_true, if_false]
        rw [if_neg (by omega)]
    · simp only [Option.some.injEq] at h
      subst h
      exact ⟨hlen, hnd, hret, hcnt, hfin⟩

theorem sessionExec_invariant (threads : Nat) (es : List SessionEvent) :
    ∀ (s s1 : Session), SessionInv threads s → sessionExec s es = some s1 →
      SessionInv threads s1 := by
  induction es with
  | nil =>
    intro s s1 hi h
    simp only [sessionExec, Option.some.injEq] at h
    exact h ▸ hi
  | cons e es ih =>
    intro s s1 hi h
    simp only [sessionExec] at h
    cases hs : sessionStep s e with
    | none => simp [hs] at h
    | some s2 =>
      simp only [hs, Option.some_bind] at h
      exact ih s2 s1 (sessionInv_step threads s s2 e hi hs) h

/-- C13: in a run started by `generatePatternImages` with a pool of `threads ≥ 1` workers
(which resets the finished-thread counter to `0`): after `k` calls of
`patternThreadFinished` the counter is `k`; the `k`-th call emits `patternGenerationFinished`
if and only if `k = threads`; after fewer than `threads` calls the cancel flag is what it was
at start, after `threads` calls or more it is `false`.  Taken alone, a call emits and clears
the flag exactly when it brings the counter to `threads`, and otherwise leaves the flag as it
is.  With the calls delivered by the watchers, one per returned worker, in any interleaving
with the run: the event is emitted at most once, it has been emitted exactly when all
`threads` watchers have delivered, and then every worker has returned. -/
theorem finished_event_fires_on_last_thread (pre : Controller) (model : StatusTable)
    (pd : PatternDisplayData) (threads : Nat) (hT : 0 < threads) :
    (∀ k,
      (patternThreadFinishedCalls (generatePatternImages pre model pd threads).ctl threads
        k).1.m_NumOfFinishedPatternThreads = k ∧
      (patternThreadFinishedCalls (generatePatternImages pre model pd threads).ctl threads
        k).2 = (List.range k).map (fun j => decide (j + 1 = threads)) ∧
      (k < threads →
        (patternThreadFinishedCalls (generatePatternImages pre model pd threads).ctl threads
          k).1.m_Cancel = (generatePatternImages pre model pd threads).ctl.m_Cancel) ∧
      (threads ≤ k →
        (patternThreadFinishedCalls (generatePatternImages pre model pd threads).ctl threads
          k).1.m_Cancel = false)) ∧
    (∀ c : Controller,
      (patternThreadFinished c threads).1.m_NumOfFinishedPatternThreads =
        c.m_NumOfFinishedPatternThreads + 1 ∧
      ((patternThreadFinished c threads).2 = true ↔
        c.m_NumOfFinishedPatternThreads + 1 = threads) ∧
      (c.m_NumOfFinishedPatternThreads + 1 = threads →
        (patternThreadFinished c threads).1.m_Cancel = false) ∧
      (c.m_NumOfFinishedPatternThreads + 1 ≠ threads →
        (patternThreadFinished c threads).1.m_Cancel = c.m_Cancel)) ∧
    (∀ (ses : List SessionEvent) (s : Session),
      sessionExec (startSession pre model pd threads) ses = some s →
      s.finishedEvents ≤ 1 ∧ (s.finishedEvents = 1 ↔ s.delivered.length = threads) ∧
      (s.finishedEvents = 1 → ∀ pc ∈ s.run.workers, pc = Pc.returned)) := by
  refine ⟨fun k => patternThreadFinishedCalls_spec _ threads rfl hT k,
    fun c => patternThreadFinished_spec c threads, fun ses s h => ?_⟩
  have hinit : SessionInv threads (startSession pre model pd threads) :=
    ⟨by simp [startSession, generatePatternImages], List.nodup_nil, by simp [startSession],
      rfl, by
        simp only [startSession, List.length_nil]
        rw [if_neg (by omega)]⟩
  obtain ⟨hlen, hnd, hret, hcnt, hfin⟩ := sessionExec_invariant threads ses _ s hinit h
  have hbound : s.delivered.length ≤ threads :=
    nodup_length_le _ _ hnd (fun v hv => hlen ▸ lt_length_of_getElem? (hret v hv))
  refine ⟨?_, ?_, fun h1 pc hpc => ?_⟩
  · rw [hfin]
    split <;> omega
  · rw [hfin]
    constructor
    · intro h1
      split at h1
      · omega
      · omega
    · intro h1
      rw [if_pos (by omega)]
  · have hge : threads ≤ s.delivered.length := by
      rw [hfin] at h1
      split at h1
      · assumption
      · omega
    obtain ⟨v, hv⟩ := List.mem_iff_getElem?.1 hpc
    have hvlt : v < threads := hlen ▸ lt_length_of_getElem? hv
    have hmem := nodup_full _ _ hnd
      (fun u hu => hlen ▸ lt_length_of_getElem? (hret u hu)) hge v hvlt
    have := hret v hmem
    rw [hv] at this
    exact Option.some.inj this

/-- Witness for C13: three indices and two workers on a fresh controller.  In the session
where the workers run to the end and the two watchers then deliver, the first call does not
emit, the second does, and the cancel flag is `false` afterwards. -/
theorem finished_event_fires_on_last_thread_witness :
    0 < 2 ∧
    (patternThreadFinishedCalls
      (generatePatternImages Controller.fresh StatusTable.fresh ⟨9, 0⟩ 2).ctl 2 2).2 =
        [false, true] ∧
    (sessionExec (startSession Controller.fresh StatusTable.fresh ⟨9, 0⟩ 2)
        ((sequentialSchedule 24 2).map SessionEvent.run ++
          [SessionEvent.watcherFinished 1, SessionEvent.watcherFinished 0])).map
      (fun s => (s.finishedEvents, s.delivered, s.run.ctl.m_Cancel, s.run.workers)) =
      some (1, [0, 1], false, [Pc.returned, Pc.returned]) ∧
    (∀ (ses : List SessionEvent) (s : Session),
      sessionExec (startSession Controller.fresh StatusTable.fresh ⟨9, 0⟩ 2) ses = some s →
      s.finishedEvents ≤ 1 ∧ (s.finishedEvents = 1 ↔ s.delivered.length = 2) ∧
      (s.finishedEvents = 1 → ∀ pc ∈ s.run.workers, pc = Pc.returned)) :=
  ⟨by decide, by decide, by decide,
    (finished_event_fires_on_last_thread Controller.fresh StatusTable.fresh ⟨9, 0⟩ 2
      (by decide)).2.2⟩

end PatternDisplayController
